import Mathlib

/-!
Verification of the medlit-assist repository (a biomedical-literature
assistant).  The development shallowly embeds the code of
`src/pmc_endpoint.py`, `src/tools.py` and `src/agent.py`:

* the regex-based abstract normalizer `PMCEndpoint._clean_abstract` is
  embedded as executable scanners over `List Char` that reproduce the
  leftmost/greedy semantics of each `re.sub` call;
* article XML trees are embedded as a rose tree mirroring
  `xml.etree.ElementTree` (element tag, attributes, text, tail, children),
  and `PMCEndpoint._parse_article` / `_format_apa` are translated field by
  field;
* the fallible fetch pipeline (`fetch_pmc_records`, `search_pubmed_central`)
  is embedded in the `Except` monad, with the external Entrez endpoints as
  function parameters;
* one turn of `OllamaAgent.astream` is embedded as a pure transition
  function from the stored document list and the inference response to the
  new document list plus the ordered trace of emitted events.  The external
  inference service's tool-call decision is a parameter, as the code treats
  it as a black box.  The long prompt prose from the Python triple-quoted
  f-strings is transcribed without the source indentation whitespace and
  without apostrophes; no theorem depends on those bytes.

Functions whose Python loop can skip ahead (a regex substitution consumes a
whole match) are implemented with an explicit fuel argument (`…Go` with
fuel initialised to the input length) so that they are structurally
recursive and evaluate inside the kernel; fuel-independence lemmas recover
the natural defining equations.
-/

/-! ## Character classes (Python `\s`, `[ \t]`, `\w` over the ASCII range) -/

def pyWS (c : Char) : Bool :=
  c = ' ' || c = '\t' || c = '\n' || c = '\r' || c = '\x0b' || c = '\x0c'

def spTab (c : Char) : Bool := c = ' ' || c = '\t'

def wordChar (c : Char) : Bool := c.isAlphanum || c = '_'

/-! ## `re.sub(r"\n\s*\n+", "\n\n", text)` — collapse blank-line runs.

A match starting at a `'\n'` extends through the last `'\n'` of the maximal
whitespace run that follows; `afterLastNL rest` returns the text after that
last newline when the whitespace prefix of `rest` contains one. -/

def afterLastNL : List Char → Option (List Char)
  | [] => none
  | c :: rest =>
    if pyWS c then
      match afterLastNL rest with
      | some r => some r
      | none => if c = '\n' then some rest else none
    else none

def subNLGo : Nat → List Char → List Char
  | 0, _ => []
  | _+1, [] => []
  | fuel+1, c :: rest =>
    if c = '\n' ∧ (afterLastNL rest).isSome then
      '\n' :: '\n' :: subNLGo fuel ((afterLastNL rest).getD [])
    else c :: subNLGo fuel rest

def subNL (l : List Char) : List Char := subNLGo l.length l

/-! ## `re.sub(r"[ \t]+", " ", text)` — collapse horizontal whitespace. -/

def subSPGo : Nat → List Char → List Char
  | 0, _ => []
  | _+1, [] => []
  | fuel+1, c :: rest =>
    if spTab c then ' ' :: subSPGo fuel (rest.dropWhile spTab)
    else c :: subSPGo fuel rest

def subSP (l : List Char) : List Char := subSPGo l.length l

/-! ## `re.sub(r"SO\s*2", "SO₂", text)` — repair split chemical subscripts. -/

def subSO2Go : Nat → List Char → List Char
  | 0, _ => []
  | _+1, [] => []
  | fuel+1, c :: rest =>
    if c = 'S' ∧ rest.head? = some 'O' ∧ ((rest.tail.dropWhile pyWS).head? = some '2') then
      'S' :: 'O' :: '₂' :: subSO2Go fuel (rest.tail.dropWhile pyWS).tail
    else c :: subSO2Go fuel rest

def subSO2 (l : List Char) : List Char := subSO2Go l.length l

/-! ## `re.sub(rf"\b{h}:\s*", f"\n\n{h}: ", text, flags=re.IGNORECASE)`
for each section-header label `h`.  The scanner carries the word-character
status of the previous character to decide the `\b` boundary. -/

def lowerEq (a b : Char) : Bool := a.toLower == b.toLower

def matchCI : List Char → List Char → Option (List Char)
  | [], l => some l
  | _ :: _, [] => none
  | p :: ps, c :: cs => if lowerEq p c then matchCI ps cs else none

def subHdrGo (h : List Char) : Nat → Bool → List Char → List Char
  | 0, _, _ => []
  | _+1, _, [] => []
  | fuel+1, prevW, c :: rest =>
    if prevW = false ∧ (matchCI (h ++ [':']) (c :: rest)).isSome then
      '\n' :: '\n' :: (h ++ ':' :: ' ' ::
        subHdrGo h fuel false (((matchCI (h ++ [':']) (c :: rest)).getD []).dropWhile pyWS))
    else c :: subHdrGo h fuel (wordChar c) rest

def subHdr (h : List Char) (l : List Char) : List Char := subHdrGo h l.length false l

/-- `subHdr` generalised over the incoming word-boundary flag. -/
def subHdrF (h : List Char) (prevW : Bool) (l : List Char) : List Char :=
  subHdrGo h l.length prevW l

def headerNames : List (List Char) :=
  ["Objective".data, "Impact Statement".data, "Introduction".data,
   "Methods".data, "Results".data, "Conclusion".data]

def subHeaders (l : List Char) : List Char := headerNames.foldl (fun t h => subHdr h t) l

/-! ## `str.strip()` -/

def stripLeft (l : List Char) : List Char := l.dropWhile pyWS

def stripRight (l : List Char) : List Char := (l.reverse.dropWhile pyWS).reverse

def stripBoth (l : List Char) : List Char := stripRight (stripLeft l)

def stripStr (s : String) : String := ⟨stripBoth s.data⟩

/-! ## `PMCEndpoint._clean_abstract` — the five steps in source order. -/

def cleanAbstract (s : String) : String :=
  ⟨stripBoth (subHeaders (subSO2 (subSP (subNL s.data))))⟩

/-! ## Normal-form predicates used in the analysis of `cleanAbstract`.

Each is a position-by-position scan asserting that the corresponding
substitution finds no rewrite (or only already-normal ones) anywhere. -/

def noDblSp : List Char → Bool
  | [] => true
  | [_] => true
  | a :: b :: rest => !(spTab a && spTab b) && noDblSp (b :: rest)

def noTab (l : List Char) : Bool := l.all (fun c => c ≠ '\t')

/-- Does `l` contain two consecutive occurrences of the character `c`? This is
the direct reading of the claim about runs of spaces. -/
def hasPair (c : Char) : List Char → Bool
  | [] => false
  | [_] => false
  | a :: b :: rest => (a == c && b == c) || hasPair c (b :: rest)

def nlGood : List Char → Bool
  | [] => true
  | c :: rest =>
    (if c = '\n' ∧ (afterLastNL rest).isSome then
       decide (rest = '\n' :: (afterLastNL rest).getD [])
     else true) && nlGood rest

def so2Good : List Char → Bool
  | [] => true
  | c :: rest =>
    !(decide (c = 'S' ∧ rest.head? = some 'O' ∧ ((rest.tail.dropWhile pyWS).head? = some '2'))) &&
      so2Good rest

def hdrFreeAux (h : List Char) (prevW : Bool) : List Char → Bool
  | [] => true
  | c :: rest =>
    (prevW || (matchCI (h ++ [':']) (c :: rest)).isNone) && hdrFreeAux h (wordChar c) rest

def hdrFree (h : List Char) (l : List Char) : Bool := hdrFreeAux h false l

/-! ## `re.sub(r"\s*\|\s*", " ", journal)` — journal-title pipe removal. -/

def subPipeGo : Nat → List Char → List Char
  | 0, _ => []
  | _+1, [] => []
  | fuel+1, c :: rest =>
    if ((c :: rest).dropWhile pyWS).head? = some '|' then
      ' ' :: subPipeGo fuel (((c :: rest).dropWhile pyWS).tail.dropWhile pyWS)
    else c :: subPipeGo fuel rest

def subPipe (l : List Char) : List Char := subPipeGo l.length l

/-! ## `text.replace("https://doi.org/", "")` -/

def doiUrlPat : List Char := "https://doi.org/".data

def removeDoiGo : Nat → List Char → List Char
  | 0, _ => []
  | _+1, [] => []
  | fuel+1, c :: rest =>
    if doiUrlPat.isPrefixOf (c :: rest) then removeDoiGo fuel ((c :: rest).drop doiUrlPat.length)
    else c :: removeDoiGo fuel rest

def removeDoiUrl (l : List Char) : List Char := removeDoiGo l.length l

/-! ## XML document trees (mirror of `xml.etree.ElementTree` elements). -/

inductive XML where
  | node (tag : String) (attrs : List (String × String)) (text : Option String)
      (tailText : Option String) (children : List XML)

def XML.tag : XML → String
  | .node t _ _ _ _ => t

def XML.attrs : XML → List (String × String)
  | .node _ a _ _ _ => a

def XML.text : XML → Option String
  | .node _ _ t _ _ => t

def XML.tailText : XML → Option String
  | .node _ _ _ t _ => t

def XML.children : XML → List XML
  | .node _ _ _ _ ch => ch

mutual

def XML.descendants : XML → List XML
  | .node _ _ _ _ ch => descendantsList ch

def descendantsList : List XML → List XML
  | [] => []
  | x :: xs => x :: XML.descendants x ++ descendantsList xs

end

/-- All text nodes yielded by `Element.itertext()` in document order: the
element text when truthy, then recursively each child's texts followed by
the child's tail when truthy. -/
def truthyTexts (t : Option String) : List String :=
  match t with
  | some s => if s ≠ "" then [s] else []
  | none => []

mutual

def XML.itertext : XML → List String
  | .node _ _ t _ ch => truthyTexts t ++ itertextList ch

def itertextList : List XML → List String
  | [] => []
  | x :: xs => XML.itertext x ++ truthyTexts x.tailText ++ itertextList xs

end

/-! ## Element lookups used by `_parse_article`.

`root.find(".//tag")` searches proper descendants in document order;
`e.findtext("tag")` searches direct children and yields `elem.text or ""`. -/

def findDesc (root : XML) (tag : String) : Option XML :=
  root.descendants.find? (fun d => d.tag == tag)

def findtextDescD (e : XML) (tag d : String) : String :=
  match e.descendants.find? (fun x => x.tag == tag) with
  | none => d
  | some el => el.text.getD ""

def findtextChild (e : XML) (tag : String) : Option String :=
  match e.children.find? (fun x => x.tag == tag) with
  | none => none
  | some el => some (el.text.getD "")

/-- `find_text` helper inside `_parse_article`:
`el.text.strip() if el is not None and el.text else ""`. -/
def find_text (root : XML) (tag : String) : String :=
  match findDesc root tag with
  | none => ""
  | some el =>
    match el.text with
    | none => ""
    | some t => if t = "" then "" else stripStr t

/-! ## Field extraction (`PMCEndpoint._parse_article`, lines 45–116). -/

def contribAuthors (root : XML) : List XML :=
  root.descendants.filter
    (fun d => d.tag == "contrib" && d.attrs.lookup "contrib-type" == some "author")

/-- One author entry: included only when both surname and given name are
non-empty, rendered as `f"{surname}, {given[0]}."`. -/
def authorName (contrib : XML) : Option String :=
  let surname := findtextDescD contrib "surname" ""
  let given := findtextDescD contrib "given-names" ""
  if surname ≠ "" ∧ given ≠ "" then
    match given.data with
    | c :: _ => some (surname ++ ", " ++ ⟨[c]⟩ ++ ".")
    | [] => none
  else none

def pubDates (root : XML) : List XML :=
  root.descendants.filter (fun d => d.tag == "pub-date")

def isEpubOrPpub (pd : XML) : Bool :=
  pd.attrs.lookup "pub-type" == some "epub" || pd.attrs.lookup "pub-type" == some "ppub"

def yearTruthy (pd : XML) : Bool :=
  match findtextChild pd "year" with
  | some y => y != ""
  | none => false

/-- The year loop: the first `pub-date` of type epub or ppub whose `year`
child carries truthy text wins (`break`); otherwise the scan continues and
the year stays `""`. -/
def yearScan : List XML → String
  | [] => ""
  | pd :: rest =>
    if isEpubOrPpub pd ∧ yearTruthy pd then (findtextChild pd "year").getD ""
    else yearScan rest

def articleIds (root : XML) : List XML :=
  root.descendants.filter (fun d => d.tag == "article-id")

/-- The DOI loop: first `article-id` with `pub-id-type="doi"` and truthy
text wins; the text has every `https://doi.org/` occurrence removed and is
stripped. -/
def doiScan : List XML → String
  | [] => ""
  | aid :: rest =>
    if aid.attrs.lookup "pub-id-type" == some "doi" then
      match aid.text with
      | some t => if t ≠ "" then (⟨stripBoth (removeDoiUrl t.data)⟩ : String) else doiScan rest
      | none => doiScan rest
    else doiScan rest

/-- Python `", ".join`-style separator join. -/
def joinSep (sep : String) : List String → String
  | [] => ""
  | [a] => a
  | a :: b :: rest => a ++ sep ++ joinSep sep (b :: rest)

/-- `" ".join(text.strip() for text in e.itertext() if text.strip())`. -/
def joinedItertext (e : XML) : String :=
  joinSep " " ((e.itertext.map (fun t => stripStr t)).filter (fun t => t ≠ ""))

/-- Raw abstract assembly: paragraph-by-paragraph when `<p>` descendants
with non-empty flattened text exist, else all flattened text of the
abstract node; `""` when no abstract node exists. -/
def rawAbstractOf (root : XML) : String :=
  match findDesc root "abstract" with
  | none => ""
  | some ab =>
    let paragraphs := (ab.descendants.filter (fun d => d.tag == "p")).filterMap
      (fun p => let t := joinedItertext p; if t ≠ "" then some t else none)
    if paragraphs ≠ [] then joinSep "\n\n" paragraphs else joinedItertext ab

structure ArticleFields where
  title : String
  authors : List String
  year : String
  journal : String
  volume : String
  issue : String
  pages : String
  doi : String
  rawAbstract : String

def parseFields (root : XML) : ArticleFields :=
  { title := find_text root "article-title"
    authors := (contribAuthors root).filterMap authorName
    year := yearScan (pubDates root)
    journal := ⟨subPipe (find_text root "journal-title").data⟩
    volume := find_text root "volume"
    issue := find_text root "issue"
    pages :=
      if find_text root "fpage" ≠ "" ∧ find_text root "lpage" ≠ "" then
        find_text root "fpage" ++ "–" ++ find_text root "lpage"
      else ""
    doi := doiScan (articleIds root)
    rawAbstract := rawAbstractOf root }

/-! ## Citation formatting (`PMCEndpoint._format_apa`). -/

def authorSegment : List String → String
  | [] => ""
  | [a] => a
  | l => joinSep ", " l.dropLast ++ ", & " ++ l.getLastD ""

def citationTail (year title journal volume issue pages doi : String) : String :=
  " (" ++ year ++ "). " ++ title ++ ". " ++ journal ++ ", " ++
    (if issue ≠ "" then volume ++ "(" ++ issue ++ ")" else volume) ++ ", " ++ pages ++ ". " ++
    (if doi ≠ "" then "https://doi.org/" ++ doi else "")

def _format_apa (authors : List String) (year title journal volume issue pages doi : String) :
    String :=
  authorSegment authors ++ citationTail year title journal volume issue pages doi

structure PMCArticle where
  pmcid : String
  apa_citation : String
  abstract : String
deriving DecidableEq

def _parse_article (root : XML) (pmcid : String) : PMCArticle :=
  { pmcid := pmcid
    apa_citation :=
      _format_apa (parseFields root).authors (parseFields root).year (parseFields root).title
        (parseFields root).journal (parseFields root).volume (parseFields root).issue
        (parseFields root).pages (parseFields root).doi
    abstract := cleanAbstract (parseFields root).rawAbstract }

/-! ## `PMCEndpoint.fetch_pmc_records` and `tools.search_pubmed_central`.

The external Entrez endpoints are parameters: `esearchIds` is the outcome
of the id search, `efetchXML` the fetch-and-parse-to-tree outcome for one
id (a raised exception is an `Except.error` carrying its message). -/

def fetchLoop (efetchXML : String → Except String XML) : List String → Except String (List PMCArticle)
  | [] => .ok []
  | pmcid :: rest =>
    match efetchXML pmcid with
    | .error e => .error e
    | .ok root =>
      match fetchLoop efetchXML rest with
      | .error e => .error e
      | .ok articles => .ok (_parse_article root pmcid :: articles)

def fetch_pmc_records (esearchIds : Except String (List String))
    (efetchXML : String → Except String XML) : Except String (List PMCArticle) :=
  match esearchIds with
  | .error e => .error e
  | .ok ids => fetchLoop efetchXML ids

/-- One `{"pmcid", "citation", "abstract"}` dictionary returned by the tool. -/
structure ToolDoc where
  pmcid : String
  citation : String
  abstract : String
deriving DecidableEq

def search_pubmed_central (records : Except String (List PMCArticle)) :
    Except String (List ToolDoc) :=
  match records with
  | .ok rs => .ok (rs.map (fun r => ⟨r.pmcid, r.apa_citation, r.abstract⟩))
  | .error e => .error ("Error searching PubMed Central: " ++ e)

/-! ## One turn of `OllamaAgent.astream` (lines 41–212 of `src/agent.py`). -/

inductive Message where
  | system (content : String)
  | human (content : String)
  | ai (content : String)
deriving DecidableEq

structure ToolCallReq where
  name : Option String
  query : Option String
  maxResults : Option Nat
deriving DecidableEq

structure LLMResponse where
  toolCalls : List ToolCallReq
  content : String
deriving DecidableEq

/-- Observable actions of one turn, in emission order: literal yielded
strings, tool (repository) invocations, and streaming calls to the
inference service with the exact message list. -/
inductive Event where
  | yielded (s : String)
  | toolInvoked (name : String) (query : String) (maxResults : Nat)
  | llmSynthStream (msgs : List Message)
  | llmQAStream (msgs : List Message)
deriving DecidableEq

def Event.isInvoke : Event → Bool
  | .toolInvoked .. => true
  | _ => false

/-- Context block: `Article {i+1} (PMC ID: {pmcid}):\n{citation}\n\nAbstract: {abstract}`
joined by blank lines. -/
def contextOf (docs : List ToolDoc) : String :=
  joinSep "\n\n" (docs.enum.map (fun p =>
    "Article " ++ toString (p.1 + 1) ++ " (PMC ID: " ++ p.2.pmcid ++ "):\n" ++
      p.2.citation ++ "\n\nAbstract: " ++ p.2.abstract))

def synthSystemText : String :=
  "You are a biomedical research communicator. Your job is to:\n\n" ++
  "1. Read scientific research articles\n" ++
  "2. Explain the key findings in simple, accessible language that anyone can understand\n" ++
  "3. Always cite which article (by number and PMC ID) you are referencing\n" ++
  "4. Use analogies and plain language - avoid jargon\n" ++
  "5. Be accurate but approachable\n" ++
  "6. Structure your response with clear sections\n\n" ++
  "Format your response like:\n**What the research found:**\n[Main findings in simple terms]\n\n" ++
  "**Why it matters:**\n[Practical implications]\n\n" ++
  "**The science behind it:**\n[Technical details simplified]\n\n" ++
  "Always cite sources as with the link to go to the webpage for the article based on the PubMed ID like this: (Title, https://pmc.ncbi.nlm.nih.gov/articles/PMC12345678)"

def synthHumanText (userInput context : String) : String :=
  "Based on these research articles, please explain what we know about: " ++ userInput ++
  "\n\nResearch Articles:\n" ++ context ++
  "\n\nRemember: Explain in simple, everyday language while staying accurate. Cite the articles."

def qaSystemText (context : String) : String :=
  "You are a biomedical research communicator. Answer questions based on the research articles provided.\n\n" ++
  "Research Articles:\n" ++ context ++ "\n\n" ++
  "Guidelines:\n" ++
  "- Explain in simple, everyday language (like explaining to a friend)\n" ++
  "- Always cite which article(s) you are referencing (e.g., \"Article 1, PMC12345678\")\n" ++
  "- Use analogies when helpful\n" ++
  "- Avoid medical jargon, or explain it if necessary\n" ++
  "- Be accurate but accessible\n" ++
  "- If the articles do not answer the question, say so clearly\n\n" ++
  "Your goal is to make medical research understandable to everyone."

/-- Processing of one entry of `response.tool_calls`: the state is the
stored document list plus the event trace so far.  An unknown or missing
tool name is skipped; a successful invocation stores the result wholesale
(`self.documents = tool_result` runs before the emptiness test); a raised
invocation leaves the stored documents unchanged and yields an error
fragment. -/
def processToolCall (toolNames : List String)
    (invokeTool : String → Nat → Except String (List ToolDoc)) (userInput : String)
    (st : List ToolDoc × List Event) (tc : ToolCallReq) : List ToolDoc × List Event :=
  match tc.name with
  | none => st
  | some nm =>
    if nm ∈ toolNames then
      let q := tc.query.getD ""
      let k := tc.maxResults.getD 3
      let evs := st.2 ++
        [Event.yielded ("🔎 Searching PubMed Central for research on **" ++ q ++ "**...\n\n"),
         Event.toolInvoked nm q k]
      match invokeTool q k with
      | .ok result =>
        if result ≠ [] then
          (result, evs ++
            [Event.yielded ("📚 Found " ++ toString result.length ++
               " articles. Let me filter and explain what the research shows...\n\n"),
             Event.llmSynthStream
               [Message.system synthSystemText,
                Message.human (synthHumanText userInput (contextOf result))],
             Event.yielded "\n\n---\n\n💡 *Any other follow-up questions? Just ask!*"])
        else (result, evs ++ [Event.yielded "No articles found for that query."])
      | .error e => (st.1, evs ++ [Event.yielded ("❌ Error: " ++ e)])
    else st

/-- One full turn: the inference decision `resp` is external.  Tool-call
branch when `resp.toolCalls` is truthy; otherwise answer from the stored
documents when present (QA prompt = system message embedding the document
context, then the full chat history, then the user message); otherwise
yield the direct response content. -/
def astreamTurn (toolNames : List String)
    (invokeTool : String → Nat → Except String (List ToolDoc)) (docs : List ToolDoc)
    (history : List Message) (userInput : String) (resp : LLMResponse) :
    List ToolDoc × List Event :=
  if resp.toolCalls ≠ [] then
    resp.toolCalls.foldl (processToolCall toolNames invokeTool userInput) (docs, [])
  else if docs ≠ [] then
    (docs,
      [Event.llmQAStream
        ([Message.system (qaSystemText (contextOf docs))] ++ history ++
          [Message.human userInput])])
  else (docs, [Event.yielded resp.content])

/-! ## Spec-side definition for the year-preference refinement (C2).

Modelled from the spec sentence "prefer electronic-publication type, fall
back to print-publication type; first match wins": first scan for an epub
entry with a truthy year, then for a ppub one. -/

def specPreferYear (root : XML) : String :=
  match (pubDates root).find?
      (fun pd => pd.attrs.lookup "pub-type" == some "epub" && yearTruthy pd) with
  | some pd => (findtextChild pd "year").getD ""
  | none =>
    match (pubDates root).find?
        (fun pd => pd.attrs.lookup "pub-type" == some "ppub" && yearTruthy pd) with
    | some pd => (findtextChild pd "year").getD ""
    | none => ""

/-! ## Concrete inputs for counterexamples and witnesses. -/

def c2tree : XML :=
  .node "article" [] none none
    [.node "pub-date" [("pub-type", "ppub")] none none
       [.node "year" [] (some "2020") none []],
     .node "pub-date" [("pub-type", "epub")] none none
       [.node "year" [] (some "2024") none []]]

def emptyArticle : XML := .node "article" [] none none []

def sampleDoc : ToolDoc := ⟨"PMC111", "Smith, J. (2024). T. J, 1, 2. ", "some abstract"⟩

def emptySearchResp : LLMResponse :=
  ⟨[⟨some "search_pubmed_central", some "rare topic", some 3⟩], ""⟩

/-- Witness fetch endpoint: the second id raises. -/
def c5fetch : String → Except String XML :=
  fun id => if id = "idB" then .error "boom" else .ok emptyArticle



/-! # Theorems

## Fuel independence and derived defining equations for the scanners. -/

theorem len_cons_le {c : Char} {rest : List Char} {n : Nat}
    (h : (c :: rest).length ≤ n + 1) : rest.length ≤ n := by
  simpa [List.length_cons, Nat.succ_le_succ_iff] using h

theorem len_dropWhile_le (p : Char → Bool) (l : List Char) :
    (l.dropWhile p).length ≤ l.length :=
  (List.dropWhile_suffix p).length_le

theorem len_tail_le (l : List Char) : l.tail.length ≤ l.length := by
  cases l <;> simp [List.length_cons]

theorem matchCI_some_length : ∀ (p l r : List Char), matchCI p l = some r →
    r.length + p.length = l.length := by
  intro p
  induction p with
  | nil =>
    intro l r h
    simp only [matchCI, Option.some.injEq] at h
    subst h
    simp
  | cons a ps ih =>
    intro l r h
    cases l with
    | nil => simp [matchCI] at h
    | cons c cs =>
      simp only [matchCI] at h
      by_cases hle : lowerEq a c = true
      · rw [if_pos hle] at h
        have := ih cs r h
        simp only [List.length_cons]
        omega
      · rw [if_neg hle] at h
        exact absurd h (by simp)

theorem afterLastNL_length : ∀ (l r : List Char), afterLastNL l = some r →
    r.length < l.length := by
  intro l
  induction l with
  | nil => intro r h; simp [afterLastNL] at h
  | cons c rest ih =>
    intro r h
    simp only [afterLastNL] at h
    by_cases hw : pyWS c = true
    · rw [if_pos hw] at h
      cases hal : afterLastNL rest with
      | some r2 =>
        rw [hal] at h
        simp only [Option.some.injEq] at h
        subst h
        exact Nat.lt_succ_of_lt (ih r2 hal)
      | none =>
        rw [hal] at h
        by_cases hnl : c = '\n'
        · rw [if_pos hnl] at h
          simp only [Option.some.injEq] at h
          subst h
          simp [List.length_cons, Nat.lt_succ_self]
        · rw [if_neg hnl] at h
          exact absurd h (by simp)
    · rw [if_neg hw] at h
      exact absurd h (by simp)

theorem subNLGo_stable : ∀ (fm fn : Nat) (l : List Char), l.length ≤ fm → l.length ≤ fn →
    subNLGo fm l = subNLGo fn l := by
  intro fm
  induction fm with
  | zero =>
    intro fn l hm _
    have hl : l = [] := List.eq_nil_of_length_eq_zero (Nat.le_zero.mp hm)
    subst hl
    cases fn <;> rfl
  | succ m ih =>
    intro fn l hm hn
    cases l with
    | nil => cases fn <;> rfl
    | cons c rest =>
      cases fn with
      | zero => simp at hn
      | succ n =>
        simp only [subNLGo]
        by_cases hc : c = '\n' ∧ (afterLastNL rest).isSome
        · rw [if_pos hc, if_pos hc]
          obtain ⟨r, hal⟩ := Option.isSome_iff_exists.mp hc.2
          rw [hal]
          simp only [Option.getD_some]
          have hr : r.length < rest.length := afterLastNL_length rest r hal
          rw [ih n r (le_trans (Nat.le_of_lt hr) (len_cons_le hm))
              (le_trans (Nat.le_of_lt hr) (len_cons_le hn))]
        · rw [if_neg hc, if_neg hc, ih n rest (len_cons_le hm) (len_cons_le hn)]

theorem subNL_nil : subNL [] = [] := rfl

theorem subNL_cons_some {rest r : List Char} (h : afterLastNL rest = some r) :
    subNL ('\n' :: rest) = '\n' :: '\n' :: subNL r := by
  have hr : r.length < rest.length := afterLastNL_length rest r h
  simp only [subNL, List.length_cons, subNLGo, true_and]
  rw [if_pos (show (afterLastNL rest).isSome = true by rw [h]; rfl), h]
  simp only [Option.getD_some]
  rw [subNLGo_stable rest.length r.length r (Nat.le_of_lt hr) le_rfl]

theorem subNL_cons_none {rest : List Char} (h : afterLastNL rest = none) :
    subNL ('\n' :: rest) = '\n' :: subNL rest := by
  simp only [subNL, List.length_cons, subNLGo, true_and]
  rw [if_neg (show ¬(afterLastNL rest).isSome = true by rw [h]; simp)]

theorem subNL_cons_other {c : Char} {rest : List Char} (h : ¬c = '\n') :
    subNL (c :: rest) = c :: subNL rest := by
  have hc : ¬(c = '\n' ∧ (afterLastNL rest).isSome) := fun hc => h hc.1
  simp only [subNL, List.length_cons, subNLGo, if_neg hc]

theorem subSPGo_stable : ∀ (fm fn : Nat) (l : List Char), l.length ≤ fm → l.length ≤ fn →
    subSPGo fm l = subSPGo fn l := by
  intro fm
  induction fm with
  | zero =>
    intro fn l hm _
    have hl : l = [] := List.eq_nil_of_length_eq_zero (Nat.le_zero.mp hm)
    subst hl
    cases fn <;> rfl
  | succ m ih =>
    intro fn l hm hn
    cases l with
    | nil => cases fn <;> rfl
    | cons c rest =>
      cases fn with
      | zero => simp at hn
      | succ n =>
        simp only [subSPGo]
        by_cases hc : spTab c = true
        · rw [if_pos hc, if_pos hc]
          have hd := len_dropWhile_le spTab rest
          rw [ih n _ (le_trans hd (len_cons_le hm)) (le_trans hd (len_cons_le hn))]
        · rw [if_neg hc, if_neg hc, ih n rest (len_cons_le hm) (len_cons_le hn)]

theorem subSP_nil : subSP [] = [] := rfl

theorem subSP_cons_pos {c : Char} {rest : List Char} (h : spTab c = true) :
    subSP (c :: rest) = ' ' :: subSP (rest.dropWhile spTab) := by
  simp only [subSP, List.length_cons, subSPGo, if_pos h]
  rw [subSPGo_stable rest.length _ _ (len_dropWhile_le spTab rest) le_rfl]

theorem subSP_cons_neg {c : Char} {rest : List Char} (h : ¬spTab c = true) :
    subSP (c :: rest) = c :: subSP rest := by
  simp only [subSP, List.length_cons, subSPGo, if_neg h]

theorem subSO2Go_stable : ∀ (fm fn : Nat) (l : List Char), l.length ≤ fm → l.length ≤ fn →
    subSO2Go fm l = subSO2Go fn l := by
  intro fm
  induction fm with
  | zero =>
    intro fn l hm _
    have hl : l = [] := List.eq_nil_of_length_eq_zero (Nat.le_zero.mp hm)
    subst hl
    cases fn <;> rfl
  | succ m ih =>
    intro fn l hm hn
    cases l with
    | nil => cases fn <;> rfl
    | cons c rest =>
      cases fn with
      | zero => simp at hn
      | succ n =>
        simp only [subSO2Go]
        by_cases hc : c = 'S' ∧ rest.head? = some 'O' ∧
            ((rest.tail.dropWhile pyWS).head? = some '2')
        · rw [if_pos hc, if_pos hc]
          have hlen : ((rest.tail.dropWhile pyWS).tail).length ≤ rest.length :=
            le_trans (len_tail_le _) (le_trans (len_dropWhile_le _ _) (len_tail_le _))
          rw [ih n _ (le_trans hlen (len_cons_le hm)) (le_trans hlen (len_cons_le hn))]
        · rw [if_neg hc, if_neg hc, ih n rest (len_cons_le hm) (len_cons_le hn)]

theorem subSO2_nil : subSO2 [] = [] := rfl

theorem subSO2_cons_pos {c : Char} {rest : List Char}
    (h : c = 'S' ∧ rest.head? = some 'O' ∧ ((rest.tail.dropWhile pyWS).head? = some '2')) :
    subSO2 (c :: rest) = 'S' :: 'O' :: '₂' :: subSO2 ((rest.tail.dropWhile pyWS).tail) := by
  have hlen : ((rest.tail.dropWhile pyWS).tail).length ≤ rest.length :=
    le_trans (len_tail_le _) (le_trans (len_dropWhile_le _ _) (len_tail_le _))
  simp only [subSO2, List.length_cons, subSO2Go, if_pos h]
  rw [subSO2Go_stable rest.length _ _ hlen le_rfl]

theorem subSO2_cons_neg {c : Char} {rest : List Char}
    (h : ¬(c = 'S' ∧ rest.head? = some 'O' ∧ ((rest.tail.dropWhile pyWS).head? = some '2'))) :
    subSO2 (c :: rest) = c :: subSO2 rest := by
  simp only [subSO2, List.length_cons, subSO2Go, if_neg h]

theorem subHdrGo_stable (h : List Char) :
    ∀ (fm fn : Nat) (w : Bool) (l : List Char), l.length ≤ fm → l.length ≤ fn →
    subHdrGo h fm w l = subHdrGo h fn w l := by
  intro fm
  induction fm with
  | zero =>
    intro fn w l hm _
    have hl : l = [] := List.eq_nil_of_length_eq_zero (Nat.le_zero.mp hm)
    subst hl
    cases fn <;> rfl
  | succ m ih =>
    intro fn w l hm hn
    cases l with
    | nil => cases fn <;> rfl
    | cons c rest =>
      cases fn with
      | zero => simp at hn
      | succ n =>
        simp only [subHdrGo]
        by_cases hc : w = false ∧ (matchCI (h ++ [':']) (c :: rest)).isSome
        · rw [if_pos hc, if_pos hc]
          obtain ⟨r, hmc⟩ := Option.isSome_iff_exists.mp hc.2
          rw [hmc]
          simp only [Option.getD_some]
          have hr : r.length + (h ++ [':']).length = (c :: rest).length :=
            matchCI_some_length _ _ _ hmc
          have hr2 : r.length ≤ rest.length := by
            simp only [List.length_append, List.length_cons] at hr
            omega
          have hd : (r.dropWhile pyWS).length ≤ rest.length :=
            le_trans (len_dropWhile_le _ _) hr2
          rw [ih n false _ (le_trans hd (len_cons_le hm)) (le_trans hd (len_cons_le hn))]
        · rw [if_neg hc, if_neg hc, ih n _ rest (len_cons_le hm) (len_cons_le hn)]

theorem subHdrF_nil (h : List Char) (w : Bool) : subHdrF h w [] = [] := rfl

theorem subHdrF_true (h : List Char) (c : Char) (rest : List Char) :
    subHdrF h true (c :: rest) = c :: subHdrF h (wordChar c) rest := by
  have hc : ¬((true : Bool) = false ∧ (matchCI (h ++ [':']) (c :: rest)).isSome) := by
    intro hc
    exact absurd hc.1 (by simp)
  simp only [subHdrF, List.length_cons, subHdrGo, if_neg hc]

theorem subHdrF_match {h : List Char} {c : Char} {rest r : List Char}
    (hmc : matchCI (h ++ [':']) (c :: rest) = some r) :
    subHdrF h false (c :: rest) =
      '\n' :: '\n' :: (h ++ ':' :: ' ' :: subHdrF h false (r.dropWhile pyWS)) := by
  have hr : r.length + (h ++ [':']).length = (c :: rest).length :=
    matchCI_some_length _ _ _ hmc
  have hr2 : r.length ≤ rest.length := by
    simp only [List.length_append, List.length_cons] at hr
    omega
  have hd : (r.dropWhile pyWS).length ≤ rest.length :=
    le_trans (len_dropWhile_le _ _) hr2
  simp only [subHdrF, List.length_cons, subHdrGo, true_and]
  rw [if_pos (show (matchCI (h ++ [':']) (c :: rest)).isSome = true by rw [hmc]; rfl), hmc]
  simp only [Option.getD_some]
  rw [subHdrGo_stable h rest.length _ _ _ hd le_rfl]

theorem subHdrF_nomatch {h : List Char} {c : Char} {rest : List Char}
    (hmc : matchCI (h ++ [':']) (c :: rest) = none) :
    subHdrF h false (c :: rest) = c :: subHdrF h (wordChar c) rest := by
  simp only [subHdrF, List.length_cons, subHdrGo, true_and]
  rw [if_neg (show ¬(matchCI (h ++ [':']) (c :: rest)).isSome = true by rw [hmc]; simp)]

theorem subHdr_eq_subHdrF (h l : List Char) : subHdr h l = subHdrF h false l := rfl

theorem subPipeGo_stable : ∀ (fm fn : Nat) (l : List Char), l.length ≤ fm → l.length ≤ fn →
    subPipeGo fm l = subPipeGo fn l := by
  intro fm
  induction fm with
  | zero =>
    intro fn l hm _
    have hl : l = [] := List.eq_nil_of_length_eq_zero (Nat.le_zero.mp hm)
    subst hl
    cases fn <;> rfl
  | succ m ih =>
    intro fn l hm hn
    cases l with
    | nil => cases fn <;> rfl
    | cons c rest =>
      cases fn with
      | zero => simp at hn
      | succ n =>
        simp only [subPipeGo]
        by_cases hc : (((c :: rest).dropWhile pyWS).head? = some '|')
        · rw [if_pos hc, if_pos hc]
          have h1 : ((c :: rest).dropWhile pyWS).length ≤ rest.length + 1 := by
            simpa [List.length_cons] using len_dropWhile_le pyWS (c :: rest)
          have h5 : (((c :: rest).dropWhile pyWS).tail).length =
              ((c :: rest).dropWhile pyWS).length - 1 := List.length_tail _
          have h3 : (((c :: rest).dropWhile pyWS).tail.dropWhile pyWS).length ≤ rest.length := by
            have h4 := len_dropWhile_le pyWS (((c :: rest).dropWhile pyWS).tail)
            have h6 : (c :: rest).dropWhile pyWS ≠ [] := by
              intro hnil
              rw [hnil] at hc
              exact absurd hc (by simp)
            have h7 : 1 ≤ ((c :: rest).dropWhile pyWS).length :=
              List.length_pos.mpr h6
            omega
          rw [ih n _ (le_trans h3 (len_cons_le hm)) (le_trans h3 (len_cons_le hn))]
        · rw [if_neg hc, if_neg hc, ih n rest (len_cons_le hm) (len_cons_le hn)]

theorem subPipe_nil : subPipe [] = [] := rfl

theorem subPipe_cons_pos {c : Char} {rest : List Char}
    (h : (((c :: rest).dropWhile pyWS).head? = some '|')) :
    subPipe (c :: rest) = ' ' :: subPipe (((c :: rest).dropWhile pyWS).tail.dropWhile pyWS) := by
  have h5 : (((c :: rest).dropWhile pyWS).tail).length =
      ((c :: rest).dropWhile pyWS).length - 1 := List.length_tail _
  have h3 : (((c :: rest).dropWhile pyWS).tail.dropWhile pyWS).length ≤ rest.length := by
    have h1 : ((c :: rest).dropWhile pyWS).length ≤ rest.length + 1 := by
      simpa [List.length_cons] using len_dropWhile_le pyWS (c :: rest)
    have h4 := len_dropWhile_le pyWS (((c :: rest).dropWhile pyWS).tail)
    have h6 : (c :: rest).dropWhile pyWS ≠ [] := by
      intro hnil
      rw [hnil] at h
      exact absurd h (by simp)
    have h7 : 1 ≤ ((c :: rest).dropWhile pyWS).length := List.length_pos.mpr h6
    omega
  simp only [subPipe, List.length_cons, subPipeGo, if_pos h]
  rw [subPipeGo_stable rest.length _ _ h3 le_rfl]

theorem subPipe_cons_neg {c : Char} {rest : List Char}
    (h : ¬(((c :: rest).dropWhile pyWS).head? = some '|')) :
    subPipe (c :: rest) = c :: subPipe rest := by
  simp only [subPipe, List.length_cons, subPipeGo, if_neg h]

/-! ## Citation formatter: author segment and optional-field degradation. -/

theorem joinSep_append_last (sep : String) :
    ∀ (xs : List String) (s : String), xs ≠ [] →
    joinSep sep (xs ++ [s]) = joinSep sep xs ++ sep ++ s := by
  intro xs
  induction xs with
  | nil => intro s h; exact absurd rfl h
  | cons a rest ih =>
    intro s _
    cases rest with
    | nil => simp [joinSep]
    | cons b rest2 =>
      have h2 := ih s (by simp)
      simp only [List.cons_append] at h2 ⊢
      simp only [joinSep]
      rw [h2]
      simp [String.append_assoc]

/-- C6: the author segment of the citation renders zero authors as the
empty string, one author as the bare name, and two or more authors as the
comma-joined list whose final name is preceded by the ampersand marker
`& `; the full citation is the author segment followed by the rest of the
template. -/
theorem C6_author_rendering :
    (∀ (a : List String) (y t j v i p d : String),
        _format_apa a y t j v i p d = authorSegment a ++ citationTail y t j v i p d) ∧
    authorSegment [] = "" ∧
    (∀ x, authorSegment [x] = x) ∧
    (∀ (x y : String) (l : List String),
        authorSegment (x :: y :: l) =
          joinSep ", " ((x :: y :: l).dropLast ++ ["& " ++ (x :: y :: l).getLastD ""])) := by
  refine ⟨fun a y t j v i p d => rfl, rfl, fun x => rfl, fun x y l => ?_⟩
  have hne : (x :: y :: l).dropLast ≠ [] := by
    cases l <;> simp [List.dropLast]
  rw [joinSep_append_last ", " _ _ hne]
  show joinSep ", " (x :: y :: l).dropLast ++ ", & " ++ (x :: y :: l).getLastD "" = _
  simp only [String.append_assoc, List.dropLast_cons₂, List.getLastD_cons]
  congr 1

/-- C7: with a present issue the volume segment renders as `volume(issue)`;
with an absent issue it is the bare volume with no parentheses; with an
absent identifier no resolver URL is appended and the citation ends at the
pages segment plus the separating `. ` tail. -/
theorem C7_optional_fields :
    ∀ (a : List String) (y t j v i p d : String),
      (i ≠ "" → _format_apa a y t j v i p d =
        authorSegment a ++ " (" ++ y ++ "). " ++ t ++ ". " ++ j ++ ", " ++
          (v ++ "(" ++ i ++ ")") ++ ", " ++ p ++ ". " ++
          (if d ≠ "" then "https://doi.org/" ++ d else "")) ∧
      (i = "" → _format_apa a y t j v i p d =
        authorSegment a ++ " (" ++ y ++ "). " ++ t ++ ". " ++ j ++ ", " ++ v ++ ", " ++
          p ++ ". " ++ (if d ≠ "" then "https://doi.org/" ++ d else "")) ∧
      (d = "" → ∃ pre, _format_apa a y t j v i p d = pre ++ (p ++ ". ") ∧
        _format_apa a y t j v i p d = pre ++ p ++ ". ") := by
  intro a y t j v i p d
  refine ⟨fun hi => ?_, fun hi => ?_, fun hd => ?_⟩
  · simp only [_format_apa, citationTail, if_pos hi]
    simp [String.append_assoc]
  · simp only [_format_apa, citationTail, if_neg (by simp [hi] : ¬i ≠ "")]
    simp [String.append_assoc]
  · refine ⟨authorSegment a ++ " (" ++ y ++ "). " ++ t ++ ". " ++ j ++ ", " ++
      (if i ≠ "" then v ++ "(" ++ i ++ ")" else v) ++ ", ", ?_, ?_⟩
    · simp only [_format_apa, citationTail, if_neg (by simp [hd] : ¬d ≠ ""),
        String.append_empty]
      simp [String.append_assoc]
    · simp only [_format_apa, citationTail, if_neg (by simp [hd] : ¬d ≠ ""),
        String.append_empty]
      simp [String.append_assoc]

theorem C7_witness :
    (_format_apa [] "2024" "T" "J" "5" "3" "1–2" "" =
      authorSegment [] ++ " (" ++ "2024" ++ "). " ++ "T" ++ ". " ++ "J" ++ ", " ++
        ("5" ++ "(" ++ "3" ++ ")") ++ ", " ++ "1–2" ++ ". " ++
        (if ("" : String) ≠ "" then "https://doi.org/" ++ "" else "")) ∧
    (∃ pre, _format_apa [] "2024" "T" "J" "5" "3" "1–2" "" = pre ++ ("1–2" ++ ". ") ∧
      _format_apa [] "2024" "T" "J" "5" "3" "1–2" "" = pre ++ "1–2" ++ ". ") :=
  ⟨(C7_optional_fields [] "2024" "T" "J" "5" "3" "1–2" "").1 (by decide),
   (C7_optional_fields [] "2024" "T" "J" "5" "3" "1–2" "").2.2 rfl⟩

/-! ## Hard failure of the batch fetch and error wrapping in the tool. -/

theorem fetchLoop_error_of_mem :
    ∀ (ids : List String) (efetchXML : String → Except String XML) (badId msg : String),
      badId ∈ ids → efetchXML badId = .error msg →
      ∃ e, fetchLoop efetchXML ids = .error e := by
  intro ids
  induction ids with
  | nil => intro _ _ _ h; simp at h
  | cons id rest ih =>
    intro f badId msg hmem herr
    cases hf : f id with
    | error e0 => exact ⟨e0, by simp [fetchLoop, hf]⟩
    | ok root =>
      have hrest : badId ∈ rest := by
        rcases List.mem_cons.mp hmem with h | h
        · subst h; rw [herr] at hf; exact absurd hf (by simp)
        · exact h
      obtain ⟨e, he⟩ := ih f badId msg hrest herr
      refine ⟨e, ?_⟩
      simp [fetchLoop, hf, he]

/-- C5: if fetching or parsing any single article raises, the whole
record-retrieval call fails with no partial results, and the search tool
re-raises the failure wrapped in a retrieval error whose message extends
the original message. -/
theorem C5_failure_propagation :
    ∀ (ids : List String) (efetchXML : String → Except String XML) (badId msg : String),
      badId ∈ ids → efetchXML badId = .error msg →
      ∃ e, fetch_pmc_records (.ok ids) efetchXML = .error e ∧
        search_pubmed_central (fetch_pmc_records (.ok ids) efetchXML) =
          .error ("Error searching PubMed Central: " ++ e) ∧
        ("Error searching PubMed Central: " ++ e).data =
          ("Error searching PubMed Central: ").data ++ e.data := by
  intro ids f badId msg hmem herr
  obtain ⟨e, he⟩ := fetchLoop_error_of_mem ids f badId msg hmem herr
  refine ⟨e, ?_, ?_, String.data_append _ _⟩
  · simpa [fetch_pmc_records] using he
  · simp [fetch_pmc_records, search_pubmed_central, he]

theorem C5_witness :
    ∃ e, fetch_pmc_records (.ok ["idA", "idB"]) c5fetch = .error e ∧
      search_pubmed_central (fetch_pmc_records (.ok ["idA", "idB"]) c5fetch) =
        .error ("Error searching PubMed Central: " ++ e) ∧
      ("Error searching PubMed Central: " ++ e).data =
        ("Error searching PubMed Central: ").data ++ e.data :=
  C5_failure_propagation ["idA", "idB"] c5fetch "idB" "boom" (by simp) (by rfl)

/-! ## Year selection (C2). -/

theorem yearScan_eq_find : ∀ l : List XML,
    yearScan l =
      match l.find? (fun pd => isEpubOrPpub pd && yearTruthy pd) with
      | some pd => (findtextChild pd "year").getD ""
      | none => "" := by
  intro l
  induction l with
  | nil => rfl
  | cons pd rest ih =>
    by_cases hp : (isEpubOrPpub pd && yearTruthy pd) = true
    · simp only [List.find?_cons, hp]
      simp only [yearScan]
      rw [if_pos (by simpa [Bool.and_eq_true] using hp)]
    · have hp2 : (isEpubOrPpub pd && yearTruthy pd) = false := by
        simpa using hp
      simp only [List.find?_cons, hp2]
      simp only [yearScan]
      rw [if_neg (by simpa [Bool.and_eq_true] using hp)]
      exact ih

/-- C2 (amended): the extracted year comes from the first publication-date
entry, in document order, whose type is epub or ppub and whose year text is
truthy; there is no preference of epub over ppub, and the year is `""` when
no entry qualifies. -/
theorem C2_year_first_match (root : XML) :
    (parseFields root).year =
      match (pubDates root).find? (fun pd => isEpubOrPpub pd && yearTruthy pd) with
      | some pd => (findtextChild pd "year").getD ""
      | none => "" :=
  yearScan_eq_find (pubDates root)

/-- C2 counterexample: with a ppub entry (year 2020) preceding an epub
entry (year 2024), the code takes the ppub year while the claimed
epub-preference policy would take 2024. -/
theorem C2_cex :
    (parseFields c2tree).year = "2020" ∧ specPreferYear c2tree = "2024" ∧
      (parseFields c2tree).year ≠ specPreferYear c2tree := by decide

/-! ## Journal pipe normalization (C10). -/

theorem subPipe_no_pipe : ∀ (n : Nat) (l : List Char), l.length ≤ n →
    ∀ c ∈ subPipe l, c ≠ '|' := by
  intro n
  induction n with
  | zero =>
    intro l hl
    have : l = [] := List.eq_nil_of_length_eq_zero (Nat.le_zero.mp hl)
    subst this
    simp [subPipe_nil]
  | succ m ih =>
    intro l hl c hc
    cases l with
    | nil => simp [subPipe_nil] at hc
    | cons a rest =>
      by_cases hp : (((a :: rest).dropWhile pyWS).head? = some '|')
      · rw [subPipe_cons_pos hp] at hc
        rcases List.mem_cons.mp hc with h | h
        · subst h; decide
        · have h5 : (((a :: rest).dropWhile pyWS).tail).length =
              ((a :: rest).dropWhile pyWS).length - 1 := List.length_tail _
          have h1 : ((a :: rest).dropWhile pyWS).length ≤ rest.length + 1 := by
            simpa [List.length_cons] using len_dropWhile_le pyWS (a :: rest)
          have h4 := len_dropWhile_le pyWS (((a :: rest).dropWhile pyWS).tail)
          have h6 : (a :: rest).dropWhile pyWS ≠ [] := by
            intro hnil
            rw [hnil] at hp
            exact absurd hp (by simp)
          have h7 : 1 ≤ ((a :: rest).dropWhile pyWS).length := List.length_pos.mpr h6
          have hb : (((a :: rest).dropWhile pyWS).tail.dropWhile pyWS).length ≤ m := by
            have := len_cons_le hl
            omega
          exact ih _ hb c h
      · rw [subPipe_cons_neg hp] at hc
        rcases List.mem_cons.mp hc with h | h
        · subst h
          intro hca
          subst hca
          apply hp
          have : pyWS '|' = false := by decide
          simp [List.dropWhile_cons, this]
        · exact ih rest (len_cons_le hl) c h

/-- C10: the journal title used in the citation is the raw extracted
journal title with every `|` (and surrounding whitespace) replaced by a
single space — in particular it contains no `|` at all — while every other
extracted field equals its raw extraction with no pipe normalization. -/
theorem C10_journal_pipe_only (root : XML) :
    (parseFields root).journal = (⟨subPipe (find_text root "journal-title").data⟩ : String) ∧
    ((parseFields root).journal.data.all (fun c => !(c = '|'))) = true ∧
    (parseFields root).title = find_text root "article-title" ∧
    (parseFields root).volume = find_text root "volume" ∧
    (parseFields root).issue = find_text root "issue" ∧
    (parseFields root).pages =
      (if find_text root "fpage" ≠ "" ∧ find_text root "lpage" ≠ ""
       then find_text root "fpage" ++ "–" ++ find_text root "lpage" else "") ∧
    (parseFields root).doi = doiScan (articleIds root) ∧
    (parseFields root).rawAbstract = rawAbstractOf root := by
  refine ⟨rfl, ?_, rfl, rfl, rfl, rfl, rfl, rfl⟩
  rw [List.all_eq_true]
  intro c hc
  have hd : (parseFields root).journal.data = subPipe (find_text root "journal-title").data := rfl
  rw [hd] at hc
  have := subPipe_no_pipe (find_text root "journal-title").data.length _ le_rfl c hc
  simpa using this

/-! ## Missing optional nodes default to empty fields (C8). -/

theorem findDesc_none_of_absent (root : XML) (tag : String)
    (h : ∀ d ∈ root.descendants, d.tag ≠ tag) : findDesc root tag = none := by
  unfold findDesc
  rw [List.find?_eq_none]
  intro x hx
  simp only [beq_iff_eq]
  exact h x hx

theorem find_text_empty_of_absent (root : XML) (tag : String)
    (h : ∀ d ∈ root.descendants, d.tag ≠ tag) : find_text root tag = "" := by
  unfold find_text
  rw [findDesc_none_of_absent root tag h]

/-- C8: for every article tree, the absence of any single optional node
(title, author contributors, publication dates, journal, volume, issue,
first page, identifier, abstract) makes the corresponding field default to
the empty string or empty list, and a complete record is still produced. -/
theorem C8_missing_fields (root : XML) :
    ((∀ d ∈ root.descendants, d.tag ≠ "article-title") → (parseFields root).title = "") ∧
    ((∀ d ∈ root.descendants, d.tag ≠ "contrib") → (parseFields root).authors = []) ∧
    ((∀ d ∈ root.descendants, d.tag ≠ "pub-date") → (parseFields root).year = "") ∧
    ((∀ d ∈ root.descendants, d.tag ≠ "journal-title") → (parseFields root).journal = "") ∧
    ((∀ d ∈ root.descendants, d.tag ≠ "volume") → (parseFields root).volume = "") ∧
    ((∀ d ∈ root.descendants, d.tag ≠ "issue") → (parseFields root).issue = "") ∧
    ((∀ d ∈ root.descendants, d.tag ≠ "fpage") → (parseFields root).pages = "") ∧
    ((∀ d ∈ root.descendants, d.tag ≠ "article-id") → (parseFields root).doi = "") ∧
    ((∀ d ∈ root.descendants, d.tag ≠ "abstract") → (parseFields root).rawAbstract = "") ∧
    (∀ pmcid, _parse_article root pmcid =
      { pmcid := pmcid
        apa_citation := _format_apa (parseFields root).authors (parseFields root).year
          (parseFields root).title (parseFields root).journal (parseFields root).volume
          (parseFields root).issue (parseFields root).pages (parseFields root).doi
        abstract := cleanAbstract (parseFields root).rawAbstract }) := by
  refine ⟨?_, ?_, ?_, ?_, ?_, ?_, ?_, ?_, ?_, fun pmcid => rfl⟩
  · intro h
    exact find_text_empty_of_absent root _ h
  · intro h
    show (contribAuthors root).filterMap authorName = []
    have hnil : contribAuthors root = [] := by
      unfold contribAuthors
      rw [List.filter_eq_nil_iff]
      intro d hd
      simp only [Bool.and_eq_true, beq_iff_eq, not_and]
      intro ht
      exact absurd ht (h d hd)
    rw [hnil]
    rfl
  · intro h
    show yearScan (pubDates root) = ""
    have hnil : pubDates root = [] := by
      unfold pubDates
      rw [List.filter_eq_nil_iff]
      intro d hd
      simp only [beq_iff_eq]
      exact h d hd
    rw [hnil]
    rfl
  · intro h
    show (⟨subPipe (find_text root "journal-title").data⟩ : String) = ""
    rw [find_text_empty_of_absent root _ h]
    rfl
  · intro h
    exact find_text_empty_of_absent root _ h
  · intro h
    exact find_text_empty_of_absent root _ h
  · intro h
    show (if find_text root "fpage" ≠ "" ∧ find_text root "lpage" ≠ ""
      then find_text root "fpage" ++ "–" ++ find_text root "lpage" else "") = ""
    rw [find_text_empty_of_absent root "fpage" h]
    simp
  · intro h
    show doiScan (articleIds root) = ""
    have hnil : articleIds root = [] := by
      unfold articleIds
      rw [List.filter_eq_nil_iff]
      intro d hd
      simp only [beq_iff_eq]
      exact h d hd
    rw [hnil]
    rfl
  · intro h
    show rawAbstractOf root = ""
    unfold rawAbstractOf
    rw [findDesc_none_of_absent root _ h]

theorem C8_witness :
    (parseFields emptyArticle).title = "" ∧ (parseFields emptyArticle).authors = [] ∧
    (parseFields emptyArticle).year = "" ∧ (parseFields emptyArticle).journal = "" ∧
    (parseFields emptyArticle).volume = "" ∧ (parseFields emptyArticle).issue = "" ∧
    (parseFields emptyArticle).pages = "" ∧ (parseFields emptyArticle).doi = "" ∧
    (parseFields emptyArticle).rawAbstract = "" ∧
    _parse_article emptyArticle "PMC0" =
      { pmcid := "PMC0"
        apa_citation := _format_apa (parseFields emptyArticle).authors
          (parseFields emptyArticle).year (parseFields emptyArticle).title
          (parseFields emptyArticle).journal (parseFields emptyArticle).volume
          (parseFields emptyArticle).issue (parseFields emptyArticle).pages
          (parseFields emptyArticle).doi
        abstract := cleanAbstract (parseFields emptyArticle).rawAbstract } := by
  have h := C8_missing_fields emptyArticle
  exact ⟨h.1 (by decide), h.2.1 (by decide), h.2.2.1 (by decide), h.2.2.2.1 (by decide),
    h.2.2.2.2.1 (by decide), h.2.2.2.2.2.1 (by decide), h.2.2.2.2.2.2.1 (by decide),
    h.2.2.2.2.2.2.2.1 (by decide), h.2.2.2.2.2.2.2.2.1 (by decide),
    h.2.2.2.2.2.2.2.2.2 "PMC0"⟩

/-! ## Stored-document state across a retrieval turn (C1). -/

/-- C1 (amended): for a turn whose inference response carries exactly one
recognized retrieval call, a successful invocation overwrites the stored
documents wholesale with its result — including the zero-result case, which
replaces a previously stored non-empty set with the empty list — while a
raised invocation leaves the stored documents unchanged. -/
theorem C1_document_overwrite :
    ∀ (toolNames : List String) (nm : String)
      (invokeTool : String → Nat → Except String (List ToolDoc))
      (docs : List ToolDoc) (history : List Message) (input q content : String) (k : Nat),
      nm ∈ toolNames →
      (∀ r, invokeTool q k = .ok r →
          (astreamTurn toolNames invokeTool docs history input
            ⟨[⟨some nm, some q, some k⟩], content⟩).1 = r) ∧
      (∀ e, invokeTool q k = .error e →
          (astreamTurn toolNames invokeTool docs history input
            ⟨[⟨some nm, some q, some k⟩], content⟩).1 = docs) := by
  intro toolNames nm invokeTool docs history input q content k hmem
  constructor
  · intro r hr
    simp only [astreamTurn]
    rw [if_pos (by simp : ([(⟨some nm, some q, some k⟩ : ToolCallReq)] : List ToolCallReq) ≠ [])]
    simp only [List.foldl, processToolCall, Option.getD_some, hr]
    rw [if_pos hmem]
    by_cases hnil : r ≠ []
    · rw [if_pos hnil]
    · rw [if_neg hnil]
  · intro e he
    simp only [astreamTurn]
    rw [if_pos (by simp : ([(⟨some nm, some q, some k⟩ : ToolCallReq)] : List ToolCallReq) ≠ [])]
    simp only [List.foldl, processToolCall, Option.getD_some, he]
    rw [if_pos hmem]

theorem C1_witness :
    ("search_pubmed_central" : String) ∈ ["search_pubmed_central"] ∧
    (astreamTurn ["search_pubmed_central"] (fun _ _ => .ok [sampleDoc]) [] [] "find it"
      ⟨[⟨some "search_pubmed_central", some "q", some 3⟩], ""⟩).1 = [sampleDoc] :=
  ⟨by simp,
   (C1_document_overwrite ["search_pubmed_central"] "search_pubmed_central"
      (fun _ _ => .ok [sampleDoc]) [] [] "find it" "q" "" 3 (by simp)).1 [sampleDoc] rfl⟩

/-- C1 counterexample: a recognized retrieval call that succeeds with zero
results overwrites (clears) a previously stored non-empty document set,
contradicting the claim that it is left unchanged. -/
theorem C1_cex :
    (astreamTurn ["search_pubmed_central"] (fun _ _ => .ok []) [sampleDoc] [] "follow-up"
      emptySearchResp).1 = [] ∧ [sampleDoc] ≠ ([] : List ToolDoc) := by
  constructor
  · rfl
  · simp

/-! ## Follow-up turns answer from memory without retrieval (C9). -/

/-- C9: when the inference service reports no tool call and the stored
document set is non-empty, the turn leaves the documents unchanged and
emits exactly one event: a streaming inference call on the
question-answering prompt that embeds the stored documents as evidence
followed by the full chat history and the user message; in particular no
tool (repository) invocation occurs during the turn. -/
theorem C9_follow_up_from_memory :
    ∀ (toolNames : List String) (invokeTool : String → Nat → Except String (List ToolDoc))
      (docs : List ToolDoc) (history : List Message) (input content : String),
      docs ≠ [] →
      astreamTurn toolNames invokeTool docs history input ⟨[], content⟩ =
        (docs, [Event.llmQAStream
          ([Message.system (qaSystemText (contextOf docs))] ++ history ++
            [Message.human input])]) ∧
      (∀ e ∈ (astreamTurn toolNames invokeTool docs history input ⟨[], content⟩).2,
        e.isInvoke = false) := by
  intro toolNames invokeTool docs history input content hd
  have h1 : astreamTurn toolNames invokeTool docs history input ⟨[], content⟩ =
      (docs, [Event.llmQAStream
        ([Message.system (qaSystemText (contextOf docs))] ++ history ++
          [Message.human input])]) := by
    simp only [astreamTurn]
    rw [if_neg (by simp : ¬(([] : List ToolCallReq) ≠ [])), if_pos hd]
  refine ⟨h1, ?_⟩
  rw [h1]
  intro e he
  simp only [List.mem_singleton] at he
  subst he
  rfl

theorem C9_witness :
    astreamTurn [] (fun _ _ => .ok []) [sampleDoc] [Message.human "hi"] "what did it find?" ⟨[], ""⟩ =
      ([sampleDoc], [Event.llmQAStream
        ([Message.system (qaSystemText (contextOf [sampleDoc]))] ++ [Message.human "hi"] ++
          [Message.human "what did it find?"])]) ∧
    (∀ e ∈ (astreamTurn [] (fun _ _ => .ok []) [sampleDoc] [Message.human "hi"]
        "what did it find?" ⟨[], ""⟩).2, e.isInvoke = false) :=
  C9_follow_up_from_memory [] (fun _ _ => .ok []) [sampleDoc] [Message.human "hi"]
    "what did it find?" "" (by simp)

/-! ## Small facts about `afterLastNL`, `matchCI` and the scan predicates. -/

theorem pyWS_not_word {c : Char} (h : pyWS c = true) : wordChar c = false := by
  have hc := h
  simp only [pyWS, Bool.or_eq_true, decide_eq_true_eq] at hc
  rcases hc with ((((h | h) | h) | h) | h) | h <;> subst h <;> decide

theorem afterLastNL_nonws {c : Char} (rest : List Char) (h : ¬pyWS c = true) :
    afterLastNL (c :: rest) = none := by
  simp only [afterLastNL]
  rw [if_neg h]

theorem afterLastNL_ws_none {c : Char} {rest : List Char} (hw : pyWS c = true)
    (hnl : ¬c = '\n') (h : afterLastNL rest = none) : afterLastNL (c :: rest) = none := by
  simp only [afterLastNL, h, hw, if_true]
  rw [if_neg hnl]

theorem afterLastNL_ws_some {c : Char} {rest r : List Char} (hw : pyWS c = true)
    (h : afterLastNL rest = some r) : afterLastNL (c :: rest) = some r := by
  simp only [afterLastNL, h, hw, if_true]

theorem afterLastNL_nl_none {rest : List Char} (h : afterLastNL rest = none) :
    afterLastNL ('\n' :: rest) = some rest := by
  simp only [afterLastNL, h]
  rfl

theorem afterLastNL_cons_cases {c : Char} {rest : List Char}
    (h : afterLastNL (c :: rest) = none) :
    ¬c = '\n' ∧ (pyWS c = true → afterLastNL rest = none) := by
  by_cases hw : pyWS c = true
  · cases hr : afterLastNL rest with
    | some r => rw [afterLastNL_ws_some hw hr] at h; exact absurd h (by simp)
    | none =>
      constructor
      · intro hnl
        subst hnl
        rw [afterLastNL_nl_none hr] at h
        exact absurd h (by simp)
      · intro _; rfl
  · constructor
    · intro hnl
      subst hnl
      exact hw (by decide)
    · intro hw2
      exact absurd hw2 hw

theorem afterLastNL_last : ∀ {l r : List Char}, afterLastNL l = some r →
    afterLastNL r = none := by
  intro l
  induction l with
  | nil => intro r h; simp [afterLastNL] at h
  | cons c rest ih =>
    intro r h
    by_cases hw : pyWS c = true
    · cases hr : afterLastNL rest with
      | some r2 =>
        rw [afterLastNL_ws_some hw hr] at h
        cases h
        exact ih hr
      | none =>
        by_cases hnl : c = '\n'
        · subst hnl
          rw [afterLastNL_nl_none hr] at h
          cases h
          exact hr
        · rw [afterLastNL_ws_none hw hnl hr] at h
          exact absurd h (by simp)
    · rw [afterLastNL_nonws rest hw] at h
      exact absurd h (by simp)

theorem afterLastNL_append_none : ∀ {a : List Char} (b : List Char),
    afterLastNL (a ++ b) = none → afterLastNL a = none := by
  intro a
  induction a with
  | nil => intro b _; rfl
  | cons c t ih =>
    intro b h
    rw [List.cons_append] at h
    obtain ⟨hnl, hws⟩ := afterLastNL_cons_cases h
    by_cases hw : pyWS c = true
    · exact afterLastNL_ws_none hw hnl (ih b (hws hw))
    · exact afterLastNL_nonws t hw

theorem matchCI_append : ∀ (p l r s : List Char), matchCI p l = some r →
    matchCI p (l ++ s) = some (r ++ s) := by
  intro p
  induction p with
  | nil =>
    intro l r s h
    simp only [matchCI, Option.some.injEq] at h
    subst h
    rfl
  | cons a ps ih =>
    intro l r s h
    cases l with
    | nil => simp [matchCI] at h
    | cons c cs =>
      simp only [matchCI] at h ⊢
      by_cases hle : lowerEq a c = true
      · rw [if_pos hle] at h ⊢
        exact ih cs r s h
      · rw [if_neg hle] at h
        exact absurd h (by simp)

/-! ## Closure properties of the scan predicates. -/

theorem nlGood_cons (c : Char) (rest : List Char) :
    nlGood (c :: rest) =
      ((if c = '\n' ∧ (afterLastNL rest).isSome then
          decide (rest = '\n' :: (afterLastNL rest).getD [])
        else true) && nlGood rest) := rfl

theorem nlGood_tail {c : Char} {rest : List Char} (h : nlGood (c :: rest) = true) :
    nlGood rest = true := by
  rw [nlGood_cons, Bool.and_eq_true] at h
  exact h.2

theorem nlGood_cons_other {c : Char} {rest : List Char} (hc : ¬c = '\n') :
    nlGood (c :: rest) = nlGood rest := by
  rw [nlGood_cons, if_neg (fun hp => hc hp.1), Bool.true_and]

theorem nlGood_suffix : ∀ {l₂ l₁ : List Char}, l₂ <:+ l₁ → nlGood l₁ = true →
    nlGood l₂ = true := by
  intro l₂ l₁ hs h
  obtain ⟨t, ht⟩ := hs
  subst ht
  induction t with
  | nil => exact h
  | cons c t ih => exact ih (nlGood_tail h)

theorem nlGood_append_left : ∀ (n : Nat) (a b : List Char), a.length ≤ n →
    nlGood (a ++ b) = true → nlGood a = true := by
  intro n
  induction n with
  | zero =>
    intro a b ha _
    have : a = [] := List.eq_nil_of_length_eq_zero (Nat.le_zero.mp ha)
    subst this
    rfl
  | succ m ih =>
    intro a b ha h
    cases a with
    | nil => rfl
    | cons c a2 =>
      rw [List.cons_append] at h
      by_cases hc : c = '\n'
      · subst hc
        cases hal : afterLastNL (a2 ++ b) with
        | none =>
          have h2 : nlGood (a2 ++ b) = true := nlGood_tail h
          have ha2 : afterLastNL a2 = none := afterLastNL_append_none b hal
          rw [nlGood_cons, ha2]
          simp only [Option.isSome_none, Bool.false_eq_true, and_false, if_false,
            Bool.true_and]
          exact ih a2 b (len_cons_le ha) h2
        | some r =>
          rw [nlGood_cons, hal] at h
          simp only [Option.isSome_some, and_true, Option.getD_some, if_true,
            Bool.and_eq_true, decide_eq_true_eq] at h
          obtain ⟨heq, hrest⟩ := h
          cases a2 with
          | nil => decide
          | cons d a3 =>
            rw [List.cons_append] at heq
            have hd : d = '\n' := ((List.cons.injEq _ _ _ _).mp heq).1
            have hr : r = a3 ++ b := (((List.cons.injEq _ _ _ _).mp heq).2).symm
            subst hd
            have hrnone : afterLastNL r = none := afterLastNL_last hal
            rw [hr] at hrnone
            have ha3 : afterLastNL a3 = none := afterLastNL_append_none b hrnone
            have hg3 : nlGood a3 = true := by
              apply ih a3 b (by simp only [List.length_cons] at ha; omega)
              exact nlGood_tail hrest
            rw [nlGood_cons, afterLastNL_nl_none ha3, nlGood_cons, ha3]
            simp [hg3]
      · have h2 : nlGood (a2 ++ b) = true := nlGood_tail h
        rw [nlGood_cons_other hc]
        exact ih a2 b (len_cons_le ha) h2

theorem spTab_pyWS {c : Char} (h : spTab c = true) : pyWS c = true := by
  have hc := h
  simp only [spTab, Bool.or_eq_true, decide_eq_true_eq] at hc
  rcases hc with h | h <;> subst h <;> decide

theorem suffix_tail (l : List Char) : l.tail <:+ l := by
  cases l with
  | nil => exact ⟨[], rfl⟩
  | cons c t => exact ⟨[c], rfl⟩

theorem afterLastNL_dropWhile_spTab : ∀ (l : List Char), afterLastNL l = none →
    afterLastNL (l.dropWhile spTab) = none := by
  intro l
  induction l with
  | nil => intro _; rfl
  | cons c r ih =>
    intro h
    obtain ⟨hnl, himp⟩ := afterLastNL_cons_cases h
    by_cases hst : spTab c = true
    · rw [List.dropWhile_cons, if_pos hst]
      exact ih (himp (spTab_pyWS hst))
    · rw [List.dropWhile_cons, if_neg hst]
      exact h

theorem SP_afterLastNL_none : ∀ (n : Nat) (l : List Char), l.length ≤ n →
    afterLastNL l = none → afterLastNL (subSP l) = none := by
  intro n
  induction n with
  | zero =>
    intro l hl _
    have : l = [] := List.eq_nil_of_length_eq_zero (Nat.le_zero.mp hl)
    subst this
    rfl
  | succ m ih =>
    intro l hl h
    cases l with
    | nil => rfl
    | cons c rest =>
      obtain ⟨hnl, himp⟩ := afterLastNL_cons_cases h
      by_cases hst : spTab c = true
      · rw [subSP_cons_pos hst]
        refine afterLastNL_ws_none (by decide) (by decide) ?_
        refine ih _ (le_trans (len_dropWhile_le _ _) (len_cons_le hl)) ?_
        exact afterLastNL_dropWhile_spTab rest (himp (spTab_pyWS hst))
      · rw [subSP_cons_neg hst]
        by_cases hw : pyWS c = true
        · exact afterLastNL_ws_none hw hnl (ih rest (len_cons_le hl) (himp hw))
        · exact afterLastNL_nonws _ hw

theorem SO2_afterLastNL_none : ∀ (n : Nat) (l : List Char), l.length ≤ n →
    afterLastNL l = none → afterLastNL (subSO2 l) = none := by
  intro n
  induction n with
  | zero =>
    intro l hl _
    have : l = [] := List.eq_nil_of_length_eq_zero (Nat.le_zero.mp hl)
    subst this
    rfl
  | succ m ih =>
    intro l hl h
    cases l with
    | nil => rfl
    | cons c rest =>
      by_cases hc : c = 'S' ∧ rest.head? = some 'O' ∧
          ((rest.tail.dropWhile pyWS).head? = some '2')
      · rw [subSO2_cons_pos hc]
        exact afterLastNL_nonws _ (by decide)
      · rw [subSO2_cons_neg hc]
        obtain ⟨hnl, himp⟩ := afterLastNL_cons_cases h
        by_cases hw : pyWS c = true
        · exact afterLastNL_ws_none hw hnl (ih rest (len_cons_le hl) (himp hw))
        · exact afterLastNL_nonws _ hw

theorem NL_afterLastNL_none : ∀ (n : Nat) (l : List Char), l.length ≤ n →
    afterLastNL l = none → afterLastNL (subNL l) = none := by
  intro n
  induction n with
  | zero =>
    intro l hl _
    have : l = [] := List.eq_nil_of_length_eq_zero (Nat.le_zero.mp hl)
    subst this
    rfl
  | succ m ih =>
    intro l hl h
    cases l with
    | nil => rfl
    | cons c rest =>
      obtain ⟨hnl, himp⟩ := afterLastNL_cons_cases h
      rw [subNL_cons_other hnl]
      by_cases hw : pyWS c = true
      · exact afterLastNL_ws_none hw hnl (ih rest (len_cons_le hl) (himp hw))
      · exact afterLastNL_nonws _ hw

/-! ## The blank-line substitution: output normality and fixed points. -/

theorem nlGood_subNL : ∀ (n : Nat) (l : List Char), l.length ≤ n →
    nlGood (subNL l) = true := by
  intro n
  induction n with
  | zero =>
    intro l hl
    have : l = [] := List.eq_nil_of_length_eq_zero (Nat.le_zero.mp hl)
    subst this
    rfl
  | succ m ih =>
    intro l hl
    cases l with
    | nil => rfl
    | cons c rest =>
      by_cases hc : c = '\n'
      · subst hc
        cases hal : afterLastNL rest with
        | none =>
          rw [subNL_cons_none hal, nlGood_cons,
            NL_afterLastNL_none rest.length rest le_rfl hal]
          simp [ih rest (len_cons_le hl)]
        | some r =>
          rw [subNL_cons_some hal]
          have hrn : afterLastNL r = none := afterLastNL_last hal
          have h1 : afterLastNL (subNL r) = none := NL_afterLastNL_none _ _ le_rfl hrn
          rw [nlGood_cons, afterLastNL_nl_none h1, nlGood_cons, h1]
          have hr : r.length < rest.length := afterLastNL_length rest r hal
          have hg : nlGood (subNL r) = true :=
            ih r (le_trans (Nat.le_of_lt hr) (len_cons_le hl))
          simp [hg]
      · rw [subNL_cons_other hc, nlGood_cons_other hc]
        exact ih rest (len_cons_le hl)

theorem nlGood_fix : ∀ (n : Nat) (l : List Char), l.length ≤ n → nlGood l = true →
    subNL l = l := by
  intro n
  induction n with
  | zero =>
    intro l hl _
    have : l = [] := List.eq_nil_of_length_eq_zero (Nat.le_zero.mp hl)
    subst this
    rfl
  | succ m ih =>
    intro l hl h
    cases l with
    | nil => rfl
    | cons c rest =>
      by_cases hc : c = '\n'
      · subst hc
        cases hal : afterLastNL rest with
        | none =>
          rw [subNL_cons_none hal, ih rest (len_cons_le hl) (nlGood_tail h)]
        | some r =>
          rw [nlGood_cons, hal] at h
          simp only [Option.isSome_some, and_true, Option.getD_some, if_true,
            Bool.and_eq_true, decide_eq_true_eq] at h
          obtain ⟨heq, hrest⟩ := h
          have hr : r.length < rest.length := afterLastNL_length rest r hal
          have hgr : nlGood r = true := by
            rw [heq] at hrest
            exact nlGood_tail hrest
          rw [subNL_cons_some hal, ih r (le_trans (Nat.le_of_lt hr) (len_cons_le hl)) hgr,
            ← heq]
      · rw [subNL_cons_other hc, ih rest (len_cons_le hl) (nlGood_tail h)]

/-! ## `nlGood` is preserved by the later substitutions. -/

theorem nlGood_subSP_pres : ∀ (n : Nat) (l : List Char), l.length ≤ n → nlGood l = true →
    nlGood (subSP l) = true := by
  intro n
  induction n with
  | zero =>
    intro l hl _
    have : l = [] := List.eq_nil_of_length_eq_zero (Nat.le_zero.mp hl)
    subst this
    rfl
  | succ m ih =>
    intro l hl h
    cases l with
    | nil => rfl
    | cons c rest =>
      by_cases hst : spTab c = true
      · rw [subSP_cons_pos hst, nlGood_cons_other (by decide)]
        refine ih _ (le_trans (len_dropWhile_le _ _) (len_cons_le hl)) ?_
        exact nlGood_suffix (List.dropWhile_suffix _) (nlGood_tail h)
      · by_cases hc : c = '\n'
        · subst hc
          cases hal : afterLastNL rest with
          | none =>
            rw [subSP_cons_neg hst, nlGood_cons,
              SP_afterLastNL_none rest.length rest le_rfl hal]
            simp [ih rest (len_cons_le hl) (nlGood_tail h)]
          | some r =>
            rw [nlGood_cons, hal] at h
            simp only [Option.isSome_some, and_true, Option.getD_some, if_true,
              Bool.and_eq_true, decide_eq_true_eq] at h
            obtain ⟨heq, hrest⟩ := h
            subst heq
            rw [subSP_cons_neg hst, subSP_cons_neg (by decide)]
            have hrn : afterLastNL r = none := afterLastNL_last hal
            have h1 : afterLastNL (subSP r) = none := SP_afterLastNL_none _ _ le_rfl hrn
            rw [nlGood_cons, afterLastNL_nl_none h1, nlGood_cons, h1]
            have hr : r.length < ('\n' :: r).length := by simp
            have hg : nlGood (subSP r) = true := by
              refine ih r (by simp only [List.length_cons] at hl ⊢; omega) ?_
              exact nlGood_tail hrest
            simp [hg]
        · rw [subSP_cons_neg hst, nlGood_cons_other hc]
          exact ih rest (len_cons_le hl) (nlGood_tail h)

theorem nlGood_subSO2_pres : ∀ (n : Nat) (l : List Char), l.length ≤ n → nlGood l = true →
    nlGood (subSO2 l) = true := by
  intro n
  induction n with
  | zero =>
    intro l hl _
    have : l = [] := List.eq_nil_of_length_eq_zero (Nat.le_zero.mp hl)
    subst this
    rfl
  | succ m ih =>
    intro l hl h
    cases l with
    | nil => rfl
    | cons c rest =>
      by_cases hc : c = 'S' ∧ rest.head? = some 'O' ∧
          ((rest.tail.dropWhile pyWS).head? = some '2')
      · rw [subSO2_cons_pos hc, nlGood_cons_other (by decide),
          nlGood_cons_other (by decide), nlGood_cons_other (by decide)]
        have hsfx : (rest.tail.dropWhile pyWS).tail <:+ rest :=
          List.IsSuffix.trans (suffix_tail _)
            (List.IsSuffix.trans (List.dropWhile_suffix _) (suffix_tail _))
        refine ih _ (le_trans hsfx.length_le (len_cons_le hl)) ?_
        exact nlGood_suffix hsfx (nlGood_tail h)
      · rw [subSO2_cons_neg hc]
        by_cases hnl : c = '\n'
        · subst hnl
          cases hal : afterLastNL rest with
          | none =>
            rw [nlGood_cons, SO2_afterLastNL_none rest.length rest le_rfl hal]
            simp [ih rest (len_cons_le hl) (nlGood_tail h)]
          | some r =>
            rw [nlGood_cons, hal] at h
            simp only [Option.isSome_some, and_true, Option.getD_some, if_true,
              Bool.and_eq_true, decide_eq_true_eq] at h
            obtain ⟨heq, hrest⟩ := h
            subst heq
            rw [subSO2_cons_neg (by simp)]
            have hrn : afterLastNL r = none := afterLastNL_last hal
            have h1 : afterLastNL (subSO2 r) = none := SO2_afterLastNL_none _ _ le_rfl hrn
            rw [nlGood_cons, afterLastNL_nl_none h1, nlGood_cons, h1]
            have hg : nlGood (subSO2 r) = true := by
              refine ih r (by simp only [List.length_cons] at hl ⊢; omega) ?_
              exact nlGood_tail hrest
            simp [hg]
        · rw [nlGood_cons_other hnl]
          exact ih rest (len_cons_le hl) (nlGood_tail h)

/-! ## Horizontal-whitespace invariants. -/

theorem head?_dropWhile_not (p : Char → Bool) :
    ∀ (l : List Char) {d : Char}, (l.dropWhile p).head? = some d → p d = false := by
  intro l
  induction l with
  | nil => intro d h; simp at h
  | cons c r ih =>
    intro d h
    rw [List.dropWhile_cons] at h
    by_cases pc : p c = true
    · rw [if_pos pc] at h
      exact ih h
    · rw [if_neg pc] at h
      simp only [List.head?_cons, Option.some.injEq] at h
      subst h
      simpa using pc

theorem noDblSp_tail : ∀ {a : Char} {l : List Char}, noDblSp (a :: l) = true →
    noDblSp l = true := by
  intro a l h
  cases l with
  | nil => rfl
  | cons b t =>
    simp only [noDblSp, Bool.and_eq_true] at h
    exact h.2

theorem noDblSp_pair : ∀ {a : Char} {l : List Char}, noDblSp (a :: l) = true →
    ∀ b, l.head? = some b → (spTab a && spTab b) = false := by
  intro a l h b hb
  cases l with
  | nil => simp at hb
  | cons d t =>
    simp only [List.head?_cons, Option.some.injEq] at hb
    subst hb
    simp only [noDblSp, Bool.and_eq_true] at h
    rcases (by simpa using h.1 : spTab a = false ∨ spTab d = false) with hh | hh <;> simp [hh]

theorem noDblSp_cons_build : ∀ (a : Char) (l : List Char),
    (∀ b, l.head? = some b → (spTab a && spTab b) = false) → noDblSp l = true →
    noDblSp (a :: l) = true := by
  intro a l hp h
  cases l with
  | nil => rfl
  | cons b t =>
    simp only [noDblSp, Bool.and_eq_true]
    exact ⟨by rw [hp b rfl]; rfl, h⟩

theorem noDblSp_suffix : ∀ {l₂ l₁ : List Char}, l₂ <:+ l₁ → noDblSp l₁ = true →
    noDblSp l₂ = true := by
  intro l₂ l₁ hs h
  obtain ⟨t, ht⟩ := hs
  subst ht
  induction t with
  | nil => exact h
  | cons c t ih => exact ih (noDblSp_tail h)

theorem noDblSp_append_left : ∀ (a b : List Char), noDblSp (a ++ b) = true →
    noDblSp a = true := by
  intro a
  induction a with
  | nil => intro _ _; rfl
  | cons x a2 ih =>
    intro b h
    rw [List.cons_append] at h
    refine noDblSp_cons_build x a2 ?_ (ih b (noDblSp_tail h))
    intro c hc
    refine noDblSp_pair h c ?_
    cases a2 with
    | nil => simp at hc
    | cons d t =>
      simp only [List.head?_cons, Option.some.injEq] at hc
      subst hc
      rfl

theorem noDblSp_append_build : ∀ (a b : List Char), noDblSp a = true → noDblSp b = true →
    (∀ x y, a.getLast? = some x → b.head? = some y → (spTab x && spTab y) = false) →
    noDblSp (a ++ b) = true := by
  intro a
  induction a with
  | nil => intro b _ hb _; exact hb
  | cons x a2 ih =>
    intro b ha hb hxy
    rw [List.cons_append]
    cases a2 with
    | nil =>
      refine noDblSp_cons_build x b ?_ hb
      intro y hy
      exact hxy x y rfl hy
    | cons z a3 =>
      rw [List.cons_append]
      refine noDblSp_cons_build x (z :: (a3 ++ b)) ?_ ?_
      · intro c hc
        simp only [List.head?_cons, Option.some.injEq] at hc
        subst hc
        exact noDblSp_pair ha _ rfl
      · rw [← List.cons_append]
        refine ih b (noDblSp_tail ha) hb ?_
        intro u v hu hv
        refine hxy u v ?_ hv
        rw [List.getLast?_cons_cons]
        exact hu

theorem noTab_tail : ∀ {a : Char} {l : List Char}, noTab (a :: l) = true → noTab l = true := by
  intro a l h
  simp only [noTab, List.all_cons, Bool.and_eq_true] at h
  exact h.2

theorem noTab_head : ∀ {a : Char} {l : List Char}, noTab (a :: l) = true → ¬a = '\t' := by
  intro a l h
  simp only [noTab, List.all_cons, Bool.and_eq_true, decide_eq_true_eq] at h
  exact h.1

theorem noTab_cons_build : ∀ {a : Char} {l : List Char}, ¬a = '\t' → noTab l = true →
    noTab (a :: l) = true := by
  intro a l ha h
  simp only [noTab, List.all_cons, Bool.and_eq_true, decide_eq_true_eq]
  exact ⟨ha, by simpa [noTab] using h⟩

theorem noTab_suffix : ∀ {l₂ l₁ : List Char}, l₂ <:+ l₁ → noTab l₁ = true →
    noTab l₂ = true := by
  intro l₂ l₁ hs h
  rw [noTab, List.all_eq_true] at h ⊢
  intro x hx
  exact h x (hs.sublist.subset hx)

theorem noDblSp_subSP : ∀ (n : Nat) (l : List Char), l.length ≤ n →
    noDblSp (subSP l) = true := by
  intro n
  induction n with
  | zero =>
    intro l hl
    have : l = [] := List.eq_nil_of_length_eq_zero (Nat.le_zero.mp hl)
    subst this
    rfl
  | succ m ih =>
    intro l hl
    cases l with
    | nil => rfl
    | cons c rest =>
      by_cases hst : spTab c = true
      · rw [subSP_cons_pos hst]
        refine noDblSp_cons_build _ _ ?_
          (ih _ (le_trans (len_dropWhile_le _ _) (len_cons_le hl)))
        intro b hb
        cases hX : rest.dropWhile spTab with
        | nil => rw [hX] at hb; simp [subSP_nil] at hb
        | cons d t =>
          have hd : spTab d = false := head?_dropWhile_not spTab rest (by rw [hX]; rfl)
          rw [hX, subSP_cons_neg (by simp [hd])] at hb
          simp only [List.head?_cons, Option.some.injEq] at hb
          subst hb
          simp [hd]
      · rw [subSP_cons_neg hst]
        refine noDblSp_cons_build _ _ ?_ (ih rest (len_cons_le hl))
        intro b _
        simp only [Bool.and_eq_false_iff]
        left
        simpa using hst

theorem noTab_subSP : ∀ (n : Nat) (l : List Char), l.length ≤ n →
    noTab (subSP l) = true := by
  intro n
  induction n with
  | zero =>
    intro l hl
    have : l = [] := List.eq_nil_of_length_eq_zero (Nat.le_zero.mp hl)
    subst this
    rfl
  | succ m ih =>
    intro l hl
    cases l with
    | nil => rfl
    | cons c rest =>
      by_cases hst : spTab c = true
      · rw [subSP_cons_pos hst]
        exact noTab_cons_build (by decide)
          (ih _ (le_trans (len_dropWhile_le _ _) (len_cons_le hl)))
      · rw [subSP_cons_neg hst]
        refine noTab_cons_build ?_ (ih rest (len_cons_le hl))
        intro hc
        subst hc
        exact hst (by decide)

theorem subSP_fix : ∀ (n : Nat) (l : List Char), l.length ≤ n → noTab l = true →
    noDblSp l = true → subSP l = l := by
  intro n
  induction n with
  | zero =>
    intro l hl _ _
    have : l = [] := List.eq_nil_of_length_eq_zero (Nat.le_zero.mp hl)
    subst this
    rfl
  | succ m ih =>
    intro l hl ht hd
    cases l with
    | nil => rfl
    | cons c rest =>
      by_cases hst : spTab c = true
      · have hsp : c = ' ' := by
          have := noTab_head ht
          have hc := hst
          simp only [spTab, Bool.or_eq_true, decide_eq_true_eq] at hc
          rcases hc with h | h
          · exact h
          · exact absurd h this
        have hdw : rest.dropWhile spTab = rest := by
          cases rest with
          | nil => rfl
          | cons b t =>
            have hp := noDblSp_pair hd b rfl
            rw [hst] at hp
            simp only [Bool.true_and] at hp
            rw [List.dropWhile_cons, if_neg (by simp [hp])]
        rw [subSP_cons_pos hst, hdw, ih rest (len_cons_le hl) (noTab_tail ht) (noDblSp_tail hd),
          hsp]
      · rw [subSP_cons_neg hst, ih rest (len_cons_le hl) (noTab_tail ht) (noDblSp_tail hd)]

theorem subSO2_head? : ∀ (l : List Char), (subSO2 l).head? = l.head? := by
  intro l
  cases l with
  | nil => rfl
  | cons c rest =>
    by_cases hc : c = 'S' ∧ rest.head? = some 'O' ∧
        ((rest.tail.dropWhile pyWS).head? = some '2')
    · rw [subSO2_cons_pos hc, hc.1]
      rfl
    · rw [subSO2_cons_neg hc]
      rfl

theorem noDblSp_subSO2 : ∀ (n : Nat) (l : List Char), l.length ≤ n → noDblSp l = true →
    noDblSp (subSO2 l) = true := by
  intro n
  induction n with
  | zero =>
    intro l hl _
    have : l = [] := List.eq_nil_of_length_eq_zero (Nat.le_zero.mp hl)
    subst this
    rfl
  | succ m ih =>
    intro l hl h
    cases l with
    | nil => rfl
    | cons c rest =>
      by_cases hc : c = 'S' ∧ rest.head? = some 'O' ∧
          ((rest.tail.dropWhile pyWS).head? = some '2')
      · rw [subSO2_cons_pos hc]
        have hsfx : (rest.tail.dropWhile pyWS).tail <:+ rest :=
          List.IsSuffix.trans (suffix_tail _)
            (List.IsSuffix.trans (List.dropWhile_suffix _) (suffix_tail _))
        refine noDblSp_cons_build _ _ (by intro b _; rfl) ?_
        refine noDblSp_cons_build _ _ (by intro b _; rfl) ?_
        refine noDblSp_cons_build _ _ (by intro b _; rfl) ?_
        refine ih _ (le_trans hsfx.length_le (len_cons_le hl)) ?_
        exact noDblSp_suffix hsfx (noDblSp_tail h)
      · rw [subSO2_cons_neg hc]
        refine noDblSp_cons_build _ _ ?_ (ih rest (len_cons_le hl) (noDblSp_tail h))
        intro b hb
        rw [subSO2_head?] at hb
        exact noDblSp_pair h b hb

theorem noTab_subSO2 : ∀ (n : Nat) (l : List Char), l.length ≤ n → noTab l = true →
    noTab (subSO2 l) = true := by
  intro n
  induction n with
  | zero =>
    intro l hl _
    have : l = [] := List.eq_nil_of_length_eq_zero (Nat.le_zero.mp hl)
    subst this
    rfl
  | succ m ih =>
    intro l hl h
    cases l with
    | nil => rfl
    | cons c rest =>
      by_cases hc : c = 'S' ∧ rest.head? = some 'O' ∧
          ((rest.tail.dropWhile pyWS).head? = some '2')
      · rw [subSO2_cons_pos hc]
        have hsfx : (rest.tail.dropWhile pyWS).tail <:+ rest :=
          List.IsSuffix.trans (suffix_tail _)
            (List.IsSuffix.trans (List.dropWhile_suffix _) (suffix_tail _))
        refine noTab_cons_build (by decide) (noTab_cons_build (by decide)
          (noTab_cons_build (by decide) ?_))
        exact ih _ (le_trans hsfx.length_le (len_cons_le hl)) (noTab_suffix hsfx (noTab_tail h))
      · rw [subSO2_cons_neg hc]
        exact noTab_cons_build (noTab_head h) (ih rest (len_cons_le hl) (noTab_tail h))

theorem subSO2_fix : ∀ (n : Nat) (l : List Char), l.length ≤ n → so2Good l = true →
    subSO2 l = l := by
  intro n
  induction n with
  | zero =>
    intro l hl _
    have : l = [] := List.eq_nil_of_length_eq_zero (Nat.le_zero.mp hl)
    subst this
    rfl
  | succ m ih =>
    intro l hl h
    cases l with
    | nil => rfl
    | cons c rest =>
      simp only [so2Good, Bool.and_eq_true, Bool.not_eq_eq_eq_not, Bool.not_true,
        decide_eq_false_iff_not] at h
      rw [subSO2_cons_neg h.1, ih rest (len_cons_le hl) (by simpa [so2Good] using h.2)]

/-! ## The subscript substitution: output normality and fixed points. -/

theorem so2Good_tail : ∀ {c : Char} {l : List Char}, so2Good (c :: l) = true →
    so2Good l = true := by
  intro c l h
  simp only [so2Good, Bool.and_eq_true] at h
  exact h.2

theorem so2Good_cons_build {c : Char} {rest : List Char}
    (h1 : ¬(c = 'S' ∧ rest.head? = some 'O' ∧ ((rest.tail.dropWhile pyWS).head? = some '2')))
    (h2 : so2Good rest = true) : so2Good (c :: rest) = true := by
  simp only [so2Good, Bool.and_eq_true]
  exact ⟨by simp [h1], h2⟩

theorem so2Good_not_match {c : Char} {rest : List Char} (h : so2Good (c :: rest) = true) :
    ¬(c = 'S' ∧ rest.head? = some 'O' ∧ ((rest.tail.dropWhile pyWS).head? = some '2')) := by
  simp only [so2Good, Bool.and_eq_true, Bool.not_eq_eq_eq_not, Bool.not_true,
    decide_eq_false_iff_not] at h
  exact h.1

theorem so2Good_suffix : ∀ {l₂ l₁ : List Char}, l₂ <:+ l₁ → so2Good l₁ = true →
    so2Good l₂ = true := by
  intro l₂ l₁ hs h
  obtain ⟨t, ht⟩ := hs
  subst ht
  induction t with
  | nil => exact h
  | cons c t ih => exact ih (so2Good_tail h)

theorem SO2_dropWS_head : ∀ (n : Nat) (t : List Char), t.length ≤ n →
    ((subSO2 t).dropWhile pyWS).head? = (t.dropWhile pyWS).head? := by
  intro n
  induction n with
  | zero =>
    intro t ht
    have : t = [] := List.eq_nil_of_length_eq_zero (Nat.le_zero.mp ht)
    subst this
    rfl
  | succ m ih =>
    intro t ht
    cases t with
    | nil => rfl
    | cons d t2 =>
      by_cases hw : pyWS d = true
      · have hds : ¬d = 'S' := by
          intro hd
          subst hd
          exact absurd hw (by decide)
        rw [subSO2_cons_neg (fun hcc => hds hcc.1), List.dropWhile_cons, if_pos hw,
          List.dropWhile_cons, if_pos hw]
        exact ih t2 (len_cons_le ht)
      · have hh : (subSO2 (d :: t2)).head? = some d := by rw [subSO2_head?]; rfl
        cases hs : subSO2 (d :: t2) with
        | nil => rw [hs] at hh; simp at hh
        | cons e X =>
          rw [hs] at hh
          simp only [List.head?_cons, Option.some.injEq] at hh
          subst hh
          rw [List.dropWhile_cons, if_neg hw, List.dropWhile_cons, if_neg hw]
          rfl

theorem so2Good_subSO2 : ∀ (n : Nat) (l : List Char), l.length ≤ n →
    so2Good (subSO2 l) = true := by
  intro n
  induction n with
  | zero =>
    intro l hl
    have : l = [] := List.eq_nil_of_length_eq_zero (Nat.le_zero.mp hl)
    subst this
    rfl
  | succ m ih =>
    intro l hl
    cases l with
    | nil => rfl
    | cons c rest =>
      by_cases hc : c = 'S' ∧ rest.head? = some 'O' ∧
          ((rest.tail.dropWhile pyWS).head? = some '2')
      · rw [subSO2_cons_pos hc]
        have hb : ((rest.tail.dropWhile pyWS).tail).length ≤ m := by
          have h1 := len_tail_le (rest.tail.dropWhile pyWS)
          have h2 := len_dropWhile_le pyWS rest.tail
          have h3 := len_tail_le rest
          have h4 := len_cons_le hl
          omega
        refine so2Good_cons_build ?_ (so2Good_cons_build (by simp) (so2Good_cons_build
          (by simp) (ih _ hb)))
        intro hcc
        have h3 := hcc.2.2
        simp only [List.tail_cons] at h3
        rw [List.dropWhile_cons, if_neg (by decide)] at h3
        simp only [List.head?_cons, Option.some.injEq] at h3
        exact absurd h3 (by decide)
      · rw [subSO2_cons_neg hc]
        refine so2Good_cons_build ?_ (ih rest (len_cons_le hl))
        intro hcc
        apply hc
        refine ⟨hcc.1, ?_, ?_⟩
        · rw [← subSO2_head?]
          exact hcc.2.1
        · have h2 := hcc.2.1
          rw [subSO2_head?] at h2
          cases rest with
          | nil => simp at h2
          | cons d t2 =>
            simp only [List.head?_cons, Option.some.injEq] at h2
            subst h2
            have h3 := hcc.2.2
            rw [show subSO2 ('O' :: t2) = 'O' :: subSO2 t2 from
              subSO2_cons_neg (fun hcc2 => by exact absurd hcc2.1 (by decide))] at h3
            simp only [List.tail_cons] at h3 ⊢
            rw [← SO2_dropWS_head t2.length t2 le_rfl]
            exact h3

theorem so2Good_append_left : ∀ (a b : List Char), so2Good (a ++ b) = true →
    so2Good a = true := by
  intro a
  induction a with
  | nil => intro _ _; rfl
  | cons x a2 ih =>
    intro b h
    rw [List.cons_append] at h
    refine so2Good_cons_build ?_ (ih b (so2Good_tail h))
    intro hcc
    apply so2Good_not_match h
    refine ⟨hcc.1, ?_, ?_⟩
    · cases a2 with
      | nil => simp at hcc
      | cons d t => simpa using hcc.2.1
    · cases a2 with
      | nil => exact absurd hcc.2.1 (by simp)
      | cons d t =>
        simp only [List.tail_cons] at hcc ⊢
        have h3 := hcc.2.2
        cases hdw : t.dropWhile pyWS with
        | nil => rw [hdw] at h3; simp at h3
        | cons e u =>
          rw [hdw] at h3
          simp only [List.head?_cons, Option.some.injEq] at h3
          subst h3
          rw [List.cons_append, List.tail_cons, List.dropWhile_append]
          rw [hdw]
          simp

/-! ## `strip()` : decomposition, idempotence, and predicate preservation. -/

theorem dropWhile_pyWS_idem (l : List Char) :
    (l.dropWhile pyWS).dropWhile pyWS = l.dropWhile pyWS := by
  cases h : l.dropWhile pyWS with
  | nil => rfl
  | cons d t =>
    have hd : pyWS d = false := head?_dropWhile_not pyWS l (by rw [h]; rfl)
    rw [List.dropWhile_cons, if_neg (by simp [hd])]

theorem stripRight_decomp (l : List Char) :
    ∃ w, l = stripRight l ++ w ∧ ∀ c ∈ w, pyWS c = true := by
  refine ⟨(l.reverse.takeWhile pyWS).reverse, ?_, ?_⟩
  · calc l = l.reverse.reverse := (l.reverse_reverse).symm
      _ = (l.reverse.takeWhile pyWS ++ l.reverse.dropWhile pyWS).reverse := by
          rw [List.takeWhile_append_dropWhile]
      _ = (l.reverse.dropWhile pyWS).reverse ++ (l.reverse.takeWhile pyWS).reverse :=
          List.reverse_append _ _
      _ = stripRight l ++ (l.reverse.takeWhile pyWS).reverse := by rfl
  · intro c hc
    rw [List.mem_reverse] at hc
    exact List.mem_takeWhile_imp hc

theorem stripLeft_stripRight_self (l : List Char) :
    stripLeft (stripRight (stripLeft l)) = stripRight (stripLeft l) := by
  cases hsr : stripRight (stripLeft l) with
  | nil => rfl
  | cons d t =>
    obtain ⟨w, hw, _⟩ := stripRight_decomp (stripLeft l)
    rw [hsr] at hw
    have hh : (List.dropWhile pyWS l).head? = some d := by
      show (stripLeft l).head? = some d
      rw [hw]; rfl
    have hd : pyWS d = false := head?_dropWhile_not pyWS l hh
    show List.dropWhile pyWS (d :: t) = d :: t
    rw [List.dropWhile_cons, if_neg (by simp [hd])]

theorem stripRight_idem (l : List Char) : stripRight (stripRight l) = stripRight l := by
  show ((((l.reverse.dropWhile pyWS).reverse).reverse).dropWhile pyWS).reverse =
    (l.reverse.dropWhile pyWS).reverse
  rw [List.reverse_reverse, dropWhile_pyWS_idem]

theorem stripBoth_idem (l : List Char) : stripBoth (stripBoth l) = stripBoth l := by
  show stripRight (stripLeft (stripRight (stripLeft l))) = stripRight (stripLeft l)
  rw [stripLeft_stripRight_self, stripRight_idem]

theorem nlGood_stripBoth {l : List Char} (h : nlGood l = true) :
    nlGood (stripBoth l) = true := by
  have h1 : nlGood (stripLeft l) = true := nlGood_suffix (List.dropWhile_suffix pyWS) h
  obtain ⟨w, hw, _⟩ := stripRight_decomp (stripLeft l)
  show nlGood (stripRight (stripLeft l)) = true
  exact nlGood_append_left (stripRight (stripLeft l)).length _ w le_rfl
    (by rw [← hw]; exact h1)

theorem noDblSp_stripBoth {l : List Char} (h : noDblSp l = true) :
    noDblSp (stripBoth l) = true := by
  have h1 : noDblSp (stripLeft l) = true := noDblSp_suffix (List.dropWhile_suffix pyWS) h
  obtain ⟨w, hw, _⟩ := stripRight_decomp (stripLeft l)
  show noDblSp (stripRight (stripLeft l)) = true
  exact noDblSp_append_left _ w (by rw [← hw]; exact h1)

theorem noTab_append_left {a b : List Char} (h : noTab (a ++ b) = true) : noTab a = true := by
  simp only [noTab, List.all_append, Bool.and_eq_true] at h
  exact h.1

theorem noTab_stripBoth {l : List Char} (h : noTab l = true) :
    noTab (stripBoth l) = true := by
  have h1 : noTab (stripLeft l) = true := noTab_suffix (List.dropWhile_suffix pyWS) h
  obtain ⟨w, hw, _⟩ := stripRight_decomp (stripLeft l)
  show noTab (stripRight (stripLeft l)) = true
  exact noTab_append_left (by rw [← hw]; exact h1)

theorem so2Good_stripBoth {l : List Char} (h : so2Good l = true) :
    so2Good (stripBoth l) = true := by
  have h1 : so2Good (stripLeft l) = true := so2Good_suffix (List.dropWhile_suffix pyWS) h
  obtain ⟨w, hw, _⟩ := stripRight_decomp (stripLeft l)
  show so2Good (stripRight (stripLeft l)) = true
  exact so2Good_append_left _ w (by rw [← hw]; exact h1)

/-! ## Header freeness: the substitution is the identity on header-free text. -/

theorem hdrFreeAux_tail {h : List Char} {w : Bool} {c : Char} {l : List Char}
    (hf : hdrFreeAux h w (c :: l) = true) : hdrFreeAux h (wordChar c) l = true := by
  simp only [hdrFreeAux, Bool.and_eq_true] at hf
  exact hf.2

theorem hdrFree_id (h : List Char) : ∀ (l : List Char) (w : Bool),
    hdrFreeAux h w l = true → subHdrF h w l = l := by
  intro l
  induction l with
  | nil => intro w _; exact subHdrF_nil h w
  | cons c rest ih =>
    intro w hf
    have hf2 := hdrFreeAux_tail hf
    cases w with
    | true => rw [subHdrF_true, ih _ hf2]
    | false =>
      simp only [hdrFreeAux, Bool.false_or, Bool.and_eq_true] at hf
      have hm : matchCI (h ++ [':']) (c :: rest) = none := by
        simpa [Option.isNone_iff_eq_none] using hf.1
      rw [subHdrF_nomatch hm, ih _ hf2]

theorem hdrFreeAux_ws_peel (h : List Char) : ∀ (W m : List Char),
    (∀ c ∈ W, pyWS c = true) → hdrFreeAux h false (W ++ m) = true →
    hdrFreeAux h false m = true := by
  intro W
  induction W with
  | nil => intro m _ hf; exact hf
  | cons c W2 ih =>
    intro m hws hf
    rw [List.cons_append] at hf
    have h2 := hdrFreeAux_tail hf
    rw [pyWS_not_word (hws c (List.mem_cons_self c W2))] at h2
    exact ih m (fun d hd => hws d (List.mem_cons_of_mem c hd)) h2

theorem hdrFreeAux_append_left (h : List Char) : ∀ (a b : List Char) (w : Bool),
    hdrFreeAux h w (a ++ b) = true → hdrFreeAux h w a = true := by
  intro a
  induction a with
  | nil => intro b w _; rfl
  | cons x a2 ih =>
    intro b w hf
    rw [List.cons_append] at hf
    simp only [hdrFreeAux, Bool.and_eq_true] at hf ⊢
    refine ⟨?_, ih b _ hf.2⟩
    cases w with
    | true => rfl
    | false =>
      have h1 := hf.1
      cases hm : matchCI (h ++ [':']) (x :: a2) with
      | none => simp [hm]
      | some r =>
        have h2 := matchCI_append (h ++ [':']) (x :: a2) r b hm
        rw [List.cons_append] at h2
        rw [h2] at h1
        simp at h1

theorem hdrFreeAux_stripBoth {h l : List Char} (hf : hdrFreeAux h false l = true) :
    hdrFreeAux h false (stripBoth l) = true := by
  have h1 : hdrFreeAux h false (stripLeft l) = true := by
    refine hdrFreeAux_ws_peel h (l.takeWhile pyWS) (stripLeft l)
      (fun c hc => List.mem_takeWhile_imp hc) ?_
    show hdrFreeAux h false (l.takeWhile pyWS ++ l.dropWhile pyWS) = true
    rw [List.takeWhile_append_dropWhile]
    exact hf
  obtain ⟨w, hw, _⟩ := stripRight_decomp (stripLeft l)
  show hdrFreeAux h false (stripRight (stripLeft l)) = true
  exact hdrFreeAux_append_left h _ w false (by rw [← hw]; exact h1)

theorem subHeaders_id (t : List Char)
    (hall : ∀ h ∈ headerNames, hdrFreeAux h false t = true) : subHeaders t = t := by
  have e1 : subHdr "Objective".data t = t := by
    rw [subHdr_eq_subHdrF]; exact hdrFree_id _ t false (hall _ (by simp [headerNames]))
  have e2 : subHdr "Impact Statement".data t = t := by
    rw [subHdr_eq_subHdrF]; exact hdrFree_id _ t false (hall _ (by simp [headerNames]))
  have e3 : subHdr "Introduction".data t = t := by
    rw [subHdr_eq_subHdrF]; exact hdrFree_id _ t false (hall _ (by simp [headerNames]))
  have e4 : subHdr "Methods".data t = t := by
    rw [subHdr_eq_subHdrF]; exact hdrFree_id _ t false (hall _ (by simp [headerNames]))
  have e5 : subHdr "Results".data t = t := by
    rw [subHdr_eq_subHdrF]; exact hdrFree_id _ t false (hall _ (by simp [headerNames]))
  have e6 : subHdr "Conclusion".data t = t := by
    rw [subHdr_eq_subHdrF]; exact hdrFree_id _ t false (hall _ (by simp [headerNames]))
  show subHdr "Conclusion".data (subHdr "Results".data (subHdr "Methods".data
    (subHdr "Introduction".data (subHdr "Impact Statement".data
    (subHdr "Objective".data t))))) = t
  rw [e1, e2, e3, e4, e5, e6]

/-! ## C3: idempotence of the abstract normalizer. -/

theorem clean_fix_of (u : List Char) (h1 : subNL u = u) (h2 : subSP u = u)
    (h3 : subSO2 u = u) (h4 : subHeaders u = u) (h5 : stripBoth u = u) :
    cleanAbstract ⟨u⟩ = ⟨u⟩ := by
  show (⟨stripBoth (subHeaders (subSO2 (subSP (subNL u))))⟩ : String) = ⟨u⟩
  rw [h1, h2, h3, h4, h5]

/-- C3 (corrected): `_clean_abstract` is NOT idempotent in general (see the
counterexample `C3_cex`): re-running it on its own output re-inserts `\n\n`
before every section-header occurrence, growing the blank-line run. The amended
statement proved here: it IS idempotent on every input for which the
header-re-insertion step leaves the whitespace-normalized intermediate
unchanged, i.e. whenever every configured header name is already absent (as a
fresh `Header:`-style match) from `subSO2 (subSP (subNL x))`. -/
theorem C3_idempotent_on_header_stable (x : String)
    (hall : ∀ h ∈ headerNames, hdrFree h (subSO2 (subSP (subNL x.data))) = true) :
    cleanAbstract (cleanAbstract x) = cleanAbstract x := by
  have hall2 : ∀ h ∈ headerNames, hdrFreeAux h false (subSO2 (subSP (subNL x.data))) = true :=
    fun h hm => hall h hm
  have hHd : subHeaders (subSO2 (subSP (subNL x.data))) = subSO2 (subSP (subNL x.data)) :=
    subHeaders_id _ hall2
  have hnl : nlGood (subSO2 (subSP (subNL x.data))) = true :=
    nlGood_subSO2_pres _ _ le_rfl (nlGood_subSP_pres _ _ le_rfl (nlGood_subNL _ _ le_rfl))
  have hnt : noTab (subSO2 (subSP (subNL x.data))) = true :=
    noTab_subSO2 _ _ le_rfl (noTab_subSP _ _ le_rfl)
  have hnd : noDblSp (subSO2 (subSP (subNL x.data))) = true :=
    noDblSp_subSO2 _ _ le_rfl (noDblSp_subSP _ _ le_rfl)
  have hso : so2Good (subSO2 (subSP (subNL x.data))) = true := so2Good_subSO2 _ _ le_rfl
  have f1 : subNL (stripBoth (subSO2 (subSP (subNL x.data)))) =
      stripBoth (subSO2 (subSP (subNL x.data))) :=
    nlGood_fix _ _ le_rfl (nlGood_stripBoth hnl)
  have f2 : subSP (stripBoth (subSO2 (subSP (subNL x.data)))) =
      stripBoth (subSO2 (subSP (subNL x.data))) :=
    subSP_fix _ _ le_rfl (noTab_stripBoth hnt) (noDblSp_stripBoth hnd)
  have f3 : subSO2 (stripBoth (subSO2 (subSP (subNL x.data)))) =
      stripBoth (subSO2 (subSP (subNL x.data))) :=
    subSO2_fix _ _ le_rfl (so2Good_stripBoth hso)
  have f4 : subHeaders (stripBoth (subSO2 (subSP (subNL x.data)))) =
      stripBoth (subSO2 (subSP (subNL x.data))) :=
    subHeaders_id _ (fun h hm => hdrFreeAux_stripBoth (hall2 h hm))
  have f5 := stripBoth_idem (subSO2 (subSP (subNL x.data)))
  have hmain : cleanAbstract x = ⟨stripBoth (subSO2 (subSP (subNL x.data)))⟩ := by
    show (⟨stripBoth (subHeaders (subSO2 (subSP (subNL x.data))))⟩ : String) = _
    rw [hHd]
  rw [hmain]
  exact clean_fix_of _ f1 f2 f3 f4 f5

/-- Witness for C3: the header-free input "hello world" satisfies the hypothesis
and the normalizer is indeed idempotent on it. -/
theorem C3_witness :
    (∀ h ∈ headerNames, hdrFree h (subSO2 (subSP (subNL "hello world".data))) = true) ∧
    cleanAbstract (cleanAbstract "hello world") = cleanAbstract "hello world" :=
  ⟨by decide, C3_idempotent_on_header_stable "hello world" (by decide)⟩

/-- Counterexample to the literal C3: one pass turns "A. Objective: B." into
"A. \n\nObjective: B."; a second pass inserts another blank-line pair before the
header, so normalize(normalize(x)) differs from normalize(x). -/
theorem C3_cex :
    cleanAbstract (cleanAbstract "A. Objective: B.") ≠ cleanAbstract "A. Objective: B." := by
  decide

/-! ## C4: spacing invariants of the normalizer output. -/

theorem matchCI_suffix : ∀ (p l r : List Char), matchCI p l = some r → r <:+ l := by
  intro p
  induction p with
  | nil =>
    intro l r h
    simp only [matchCI, Option.some.injEq] at h
    subst h
    exact List.suffix_rfl
  | cons q ps ih =>
    intro l r h
    cases l with
    | nil => simp [matchCI] at h
    | cons c cs =>
      simp only [matchCI] at h
      by_cases hl : lowerEq q c = true
      · rw [if_pos hl] at h
        exact (ih cs r h).trans (List.suffix_cons c cs)
      · rw [if_neg hl] at h
        simp at h

theorem HDR_head (h : List Char) (w : Bool) (m : List Char) :
    (subHdrF h w m).head? = some '\n' ∨ (subHdrF h w m).head? = m.head? := by
  cases m with
  | nil => right; rfl
  | cons d t =>
    cases w with
    | true => rw [subHdrF_true]; right; rfl
    | false =>
      cases mc : matchCI (h ++ [':']) (d :: t) with
      | some r => rw [subHdrF_match mc]; left; rfl
      | none => rw [subHdrF_nomatch mc]; right; rfl

theorem spTab_false_of_pyWS {b : Char} (h : pyWS b = false) : spTab b = false := by
  cases hs : spTab b with
  | false => rfl
  | true => exact absurd (spTab_pyWS hs) (by simp [h])

theorem noDblSp_keep_step {c : Char} {rest X : List Char}
    (hl : noDblSp (c :: rest) = true)
    (hh : X.head? = some '\n' ∨ X.head? = rest.head?)
    (hX : noDblSp X = true) : noDblSp (c :: X) = true := by
  refine noDblSp_cons_build c X ?_ hX
  intro b hb
  rcases hh with hh | hh
  · rw [hh] at hb
    simp only [Option.some.injEq] at hb
    subst hb
    rw [show spTab '\n' = false by decide, Bool.and_false]
  · rw [hh] at hb
    exact noDblSp_pair hl b hb

theorem noDblSp_subHdrF (h : List Char) (hh : noDblSp h = true) :
    ∀ (n : Nat) (w : Bool) (l : List Char), l.length ≤ n → noDblSp l = true →
    noDblSp (subHdrF h w l) = true := by
  intro n
  induction n with
  | zero =>
    intro w l hb _
    have : l = [] := List.eq_nil_of_length_eq_zero (Nat.le_zero.mp hb)
    subst this
    rfl
  | succ m ih =>
    intro w l hb hl
    cases l with
    | nil => rfl
    | cons c rest =>
      have htl : noDblSp rest = true := noDblSp_tail hl
      cases w with
      | true =>
        rw [subHdrF_true]
        exact noDblSp_keep_step hl (HDR_head h (wordChar c) rest)
          (ih (wordChar c) rest (len_cons_le hb) htl)
      | false =>
        cases mc : matchCI (h ++ [':']) (c :: rest) with
        | none =>
          rw [subHdrF_nomatch mc]
          exact noDblSp_keep_step hl (HDR_head h (wordChar c) rest)
            (ih (wordChar c) rest (len_cons_le hb) htl)
        | some r =>
          rw [subHdrF_match mc]
          have hrl : r.length ≤ rest.length := by
            have h1 := matchCI_some_length _ _ _ mc
            simp only [List.length_append, List.length_cons] at h1
            omega
          have hrlen : (r.dropWhile pyWS).length ≤ m := by
            have h1 := len_dropWhile_le pyWS r
            have h2 : (c :: rest).length ≤ m + 1 := hb
            simp only [List.length_cons] at h2
            omega
          have hrs : (r.dropWhile pyWS) <:+ (c :: rest) :=
            (List.dropWhile_suffix pyWS).trans (matchCI_suffix _ _ _ mc)
          have hX : noDblSp (subHdrF h false (r.dropWhile pyWS)) = true :=
            ih false _ hrlen (noDblSp_suffix hrs hl)
          have hB : noDblSp (':' :: ' ' :: subHdrF h false (r.dropWhile pyWS)) = true := by
            refine noDblSp_cons_build ':' _ ?_ (noDblSp_cons_build ' ' _ ?_ hX)
            · intro b hb2
              rw [show spTab ':' = false by decide, Bool.false_and]
            · intro b hb2
              rcases HDR_head h false (r.dropWhile pyWS) with hh2 | hh2
              · rw [hh2] at hb2
                simp only [Option.some.injEq] at hb2
                subst hb2
                rw [show spTab '\n' = false by decide, Bool.and_false]
              · rw [hh2] at hb2
                have hpb : pyWS b = false := head?_dropWhile_not pyWS r hb2
                rw [spTab_false_of_pyWS hpb, Bool.and_false]
          have hC : noDblSp (h ++ ':' :: ' ' :: subHdrF h false (r.dropWhile pyWS)) = true := by
            refine noDblSp_append_build h _ hh hB ?_
            intro x y hx hy
            simp only [List.head?_cons, Option.some.injEq] at hy
            subst hy
            rw [show spTab ':' = false by decide, Bool.and_false]
          refine noDblSp_cons_build '\n' _ ?_ (noDblSp_cons_build '\n' _ ?_ hC)
          · intro b hb2
            rw [show spTab '\n' = false by decide, Bool.false_and]
          · intro b hb2
            rw [show spTab '\n' = false by decide, Bool.false_and]

theorem noDblSp_subHeaders {t : List Char} (ht : noDblSp t = true) :
    noDblSp (subHeaders t) = true := by
  show noDblSp (subHdr "Conclusion".data (subHdr "Results".data (subHdr "Methods".data
    (subHdr "Introduction".data (subHdr "Impact Statement".data
    (subHdr "Objective".data t)))))) = true
  exact noDblSp_subHdrF _ (by decide) _ false _ le_rfl
    (noDblSp_subHdrF _ (by decide) _ false _ le_rfl
    (noDblSp_subHdrF _ (by decide) _ false _ le_rfl
    (noDblSp_subHdrF _ (by decide) _ false _ le_rfl
    (noDblSp_subHdrF _ (by decide) _ false _ le_rfl
    (noDblSp_subHdrF _ (by decide) _ false _ le_rfl ht)))))

theorem hasPair_sp_eq_false : ∀ {l : List Char}, noDblSp l = true →
    hasPair ' ' l = false := by
  intro l
  induction l with
  | nil => intro _; rfl
  | cons a rest ih =>
    intro h
    cases rest with
    | nil => rfl
    | cons b t =>
      have h2 := noDblSp_tail h
      have hp := noDblSp_pair h b rfl
      simp only [hasPair]
      rw [ih h2, Bool.or_false]
      by_cases ha : a = ' '
      · subst ha
        have hb : spTab b = false := by
          have h3 := hp
          rw [show spTab ' ' = true from rfl, Bool.true_and] at h3
          exact h3
        have hb2 : ¬b = ' ' := by
          intro hbe
          subst hbe
          exact absurd hb (by decide)
        simp [hb2]
      · simp [ha]

/-- C4 (corrected): the space half of the claim holds: for every input, the
normalizer output never contains two consecutive space characters. The
blank-line half is false (see `C4_cex`): re-inserting a header right after an
existing blank line stacks a fresh `\n\n` pair onto the old one, producing four
consecutive newlines, i.e. three consecutive blank lines. -/
theorem C4_no_double_space (x : String) :
    hasPair ' ' (cleanAbstract x).data = false := by
  have hce : cleanAbstract x = ⟨stripBoth (subHeaders (subSO2 (subSP (subNL x.data))))⟩ :=
    rfl
  have hd : ∀ (l : List Char), (⟨l⟩ : String).data = l := fun l => rfl
  rw [hce, hd]
  exact hasPair_sp_eq_false (noDblSp_stripBoth (noDblSp_subHeaders
    (noDblSp_subSO2 _ _ le_rfl (noDblSp_subSP _ _ le_rfl))))

/-- Counterexample to the blank-line half of C4: on "A.\n\nObjective: B" the
normalizer emits four consecutive newlines (three consecutive blank lines),
because the header step prepends "\n\n" without looking at what precedes the
match. -/
theorem C4_cex :
    cleanAbstract "A.\n\nObjective: B" = "A.\n\n\n\nObjective: B" ∧
    List.replicate 4 '\n' <:+: (cleanAbstract "A.\n\nObjective: B").data :=
  ⟨by decide, ⟨"A.".data, "Objective: B".data, by decide⟩⟩
